import Mathlib

/-
  Verification development for the exam seating arrangement core
  (exam_scheduler.py): FloorCalculator, RoomAllocator, ConflictDetector
  and the per-session orchestration of ExamScheduler._process_session.

  Python integers are modelled as Int (capacities, which may go negative
  after buffer subtraction) and Nat (counts, usage totals).  Python's
  `int(max_cap * 0.5)` truncates toward zero, which is Int.tdiv by 2.
  Python's stable `sorted` is modelled by stableSort, a structurally
  recursive stable sort (all stable sorts agree for a total preorder).  Dicts keyed by strings are modelled as functions
  with pointwise update; dict key-iteration order (first-insertion order)
  is modelled by dedupKeys.
-/

namespace ExamSched

/-- Minimum slice size below which Pass A refuses to leave a fragment
(module constant `MIN_ALLOCATION_SIZE = 3`). -/
def MIN_ALLOCATION_SIZE : Nat := 3

/-- Insert `x` into `l`, passing over exactly the elements strictly below
it (`le y x` and not `le x y`), so that `x` lands before any element it
ties with.  For a total preorder `le` this reproduces the output of any
stable sort, in particular Python's. -/
def insertLe {α : Type} (le : α → α → Bool) (x : α) : List α → List α
  | [] => [x]
  | y :: ys => if le y x && !le x y then y :: insertLe le x ys else x :: y :: ys

/-- Stable sort by a boolean total preorder, modelling Python's stable
`sorted(..., key=...)`. -/
def stableSort {α : Type} (le : α → α → Bool) : List α → List α
  | [] => []
  | x :: xs => insertLe le x (stableSort le xs)

/-- Characters-level model of Python's `str.strip()` (drop whitespace at
both ends), used by `FloorCalculator.get_floor`. -/
def trimChars (s : List Char) : List Char :=
  ((s.dropWhile Char.isWhitespace).reverse.dropWhile Char.isWhitespace).reverse

/-- Numeric value of a decimal digit character, Python's `int(c)` for a
single digit `c`. -/
def digitVal (c : Char) : Nat := c.toNat - '0'.toNat

/-- FloorCalculator.get_floor: derive a floor number from a room
identifier.  A stripped all-digit identifier of length ≥ 5 starting with
"10" is floor 10; otherwise an identifier of length ≥ 4 whose first
character is a digit yields that digit; otherwise floor 0. -/
def get_floor (room_id : String) : Nat :=
  let s := trimChars room_id.toList
  if 5 ≤ s.length ∧ s.all Char.isDigit ∧ s.take 2 = ['1', '0'] then 10
  else
    match s with
    | c :: _ => if 4 ≤ s.length ∧ c.isDigit then digitVal c else 0
    | [] => 0

/-- FloorCalculator.calculate_distance: absolute difference of floors. -/
def calculate_distance (f1 f2 : Nat) : Nat := Int.natAbs ((f1 : Int) - f2)

/-- One row of the room registry (sheet in_room_capacity): room id,
nominal exam capacity, building (Block). -/
structure Room where
  roomNo : String
  examCapacity : Int
  block : String
  deriving Repr, DecidableEq

/-- Room record after RoomAllocator.__init__ added the derived fields
`Floor` and `effective_capacity = Exam Capacity - buffer`. -/
structure PRoom where
  roomNo : String
  examCapacity : Int
  block : String
  floor : Nat
  effective_capacity : Int
  deriving Repr, DecidableEq

/-- Field derivation performed in RoomAllocator.__init__ for one room. -/
def prepareRoom (buffer : Int) (r : Room) : PRoom :=
  ⟨r.roomNo, r.examCapacity, r.block, get_floor r.roomNo, r.examCapacity - buffer⟩

/-- Room list as prepared by RoomAllocator.__init__. -/
def prepRooms (rooms : List Room) (buffer : Int) : List PRoom :=
  rooms.map (prepareRoom buffer)

/-- Allocation strategy selected on the command line. -/
inductive Strategy where
  | dense
  | sparse
  deriving Repr, DecidableEq

/-- Mutable state of one RoomAllocator: the per-room usage dict and the
per-(room, course) tracker dict (only written under sparse). -/
structure AllocState where
  strategy : Strategy
  usage : String → Nat
  course_tracker : String → String → Nat

/-- Fresh allocator state (all usage counters zero), as built per session. -/
def initState (strategy : Strategy) : AllocState :=
  ⟨strategy, fun _ => 0, fun _ _ => 0⟩

/-- RoomAllocator.get_available_capacity.  Under dense the headroom is
`max_cap - usage`; under sparse it is additionally capped by
`int(max_cap * 0.5) - course_usage` (truncating division).  The result is
clamped to ≥ 0 (`max(0, available)`), here via Int.toNat. -/
def get_available_capacity (st : AllocState) (room_id course : String)
    (max_cap : Int) : Nat :=
  let current : Int := st.usage room_id
  match st.strategy with
  | .dense => (max_cap - current).toNat
  | .sparse =>
    let course_limit : Int := Int.tdiv max_cap 2
    let course_usage : Int := st.course_tracker room_id course
    (min (course_limit - course_usage) (max_cap - current)).toNat

/-- RoomAllocator.register_allocation: add `count` to the room's usage,
and under sparse also to the (room, course) tracker. -/
def register_allocation (st : AllocState) (room_id course : String)
    (count : Nat) : AllocState :=
  { st with
    usage := fun r => if r = room_id then st.usage r + count else st.usage r,
    course_tracker :=
      match st.strategy with
      | .sparse => fun r c =>
          if r = room_id ∧ c = course then st.course_tracker r c + count
          else st.course_tracker r c
      | .dense => st.course_tracker }

/-- One allocation record appended by _assign_to_rooms:
`{'room': room, 'students': assigned}`. -/
structure Allocation where
  room : PRoom
  students : List Nat
  deriving Repr, DecidableEq

/-- First loop of RoomAllocator._assign_to_rooms (fragment-avoidance
pass): walk the room list; where headroom exists take
`min(len(remaining), available)` unless that slice is below
MIN_ALLOCATION_SIZE while students would still be left over. -/
def passA (course : String) :
    AllocState → List Nat → List PRoom → AllocState × List Nat × List Allocation
  | st, remaining, [] => (st, remaining, [])
  | st, remaining, room :: rest =>
    if remaining = [] then (st, remaining, [])
    else
      let available :=
        get_available_capacity st room.roomNo course room.effective_capacity
      if 0 < available then
        let assign_count := min remaining.length available
        if assign_count < MIN_ALLOCATION_SIZE ∧ assign_count < remaining.length then
          passA course st remaining rest
        else
          let st1 := register_allocation st room.roomNo course assign_count
          let r := passA course st1 (remaining.drop assign_count) rest
          (r.1, r.2.1, ⟨room, remaining.take assign_count⟩ :: r.2.2)
      else passA course st remaining rest

/-- Second loop of RoomAllocator._assign_to_rooms (forced fill): walk the
same room list again, assigning any positive headroom with no
minimum-slice restriction. -/
def passB (course : String) :
    AllocState → List Nat → List PRoom → AllocState × List Nat × List Allocation
  | st, remaining, [] => (st, remaining, [])
  | st, remaining, room :: rest =>
    if remaining = [] then (st, remaining, [])
    else
      let available :=
        get_available_capacity st room.roomNo course room.effective_capacity
      if 0 < available then
        let assign_count := min remaining.length available
        let st1 := register_allocation st room.roomNo course assign_count
        let r := passB course st1 (remaining.drop assign_count) rest
        (r.1, r.2.1, ⟨room, remaining.take assign_count⟩ :: r.2.2)
      else passB course st remaining rest

/-- RoomAllocator._assign_to_rooms: fragment-avoidance pass, then, only if
students remain, the forced-fill pass over the same list.  Returns the
new state, the still-unassigned students, and the allocation records in
the order they were appended. -/
def assign_to_rooms (st : AllocState) (course : String) (students : List Nat)
    (rooms : List PRoom) : AllocState × List Nat × List Allocation :=
  let a := passA course st students rooms
  if a.2.1 = [] then a
  else
    let b := passB course a.1 a.2.1 rooms
    (b.1, b.2.1, a.2.2 ++ b.2.2)

/-- First-insertion-order key list of a Python dict built by repeated
insertion: keeps the first occurrence of each key. -/
def dedupKeys {α : Type} [DecidableEq α] (l : List α) : List α :=
  l.foldl (fun acc x => if x ∈ acc then acc else acc ++ [x]) []

/-- Iteration order of `defaultdict` `buildings` in allocate_course:
blocks in order of first appearance in the room list. -/
def blockOrder (rooms : List PRoom) : List String :=
  dedupKeys (rooms.map (·.block))

/-- Rooms grouped under one block by the `buildings` defaultdict. -/
def roomsInBlock (rooms : List PRoom) (b : String) : List PRoom :=
  rooms.filter (fun r => r.block = b)

/-- Total available capacity of a building: sum of
get_available_capacity over its rooms (allocate_course's `available`). -/
def buildingAvail (st : AllocState) (course : String) (brooms : List PRoom) : Nat :=
  (brooms.map
    (fun r => get_available_capacity st r.roomNo course r.effective_capacity)).sum

/-- Building-selection loop of allocate_course: the first building whose
available capacity covers `total` wins immediately (break); otherwise a
running best-so-far with strictly larger capacity is kept. -/
def select_building (st : AllocState) (course : String) (total : Nat)
    (rooms : List PRoom) :
    List String → Option String → Nat → Option String
  | [], best, _ => best
  | b :: rest, best, maxCap =>
    let available := buildingAvail st course (roomsInBlock rooms b)
    if total ≤ available then some b
    else if maxCap < available then
      select_building st course total rooms rest (some b) available
    else select_building st course total rooms rest best maxCap

/-- Lexicographic code-point comparison of character lists, modelling
Python's `<` on the Block strings used as a sort key. -/
def ltChars : List Char → List Char → Bool
  | [], [] => false
  | [], _ :: _ => true
  | _ :: _, [] => false
  | a :: as, b :: bs => if a = b then ltChars as bs else decide (a < b)

/-- String comparison used in the cross-building sort key. -/
def strLt (a b : String) : Bool := ltChars a.toList b.toList

/-- Sort key `(-effective_capacity, floor)` of the first in-building sort,
as a boolean total preorder. -/
def key1Le (a b : PRoom) : Bool :=
  decide (b.effective_capacity < a.effective_capacity) ||
    (decide (a.effective_capacity = b.effective_capacity) &&
      decide (a.floor ≤ b.floor))

/-- Sort key `(distance to reference floor, -effective_capacity)` of the
second in-building sort. -/
def key2Le (ref : Nat) (a b : PRoom) : Bool :=
  decide (calculate_distance a.floor ref < calculate_distance b.floor ref) ||
    (decide (calculate_distance a.floor ref = calculate_distance b.floor ref) &&
      decide (b.effective_capacity ≤ a.effective_capacity))

/-- Sort key `(-effective_capacity, Block, Floor)` of the cross-building
fallback sort. -/
def key3Le (a b : PRoom) : Bool :=
  decide (b.effective_capacity < a.effective_capacity) ||
    (decide (a.effective_capacity = b.effective_capacity) &&
      (strLt a.block b.block ||
        (decide (a.block = b.block) && decide (a.floor ≤ b.floor))))

/-- In-building room ordering of allocate_course: stable-sort by
`(-effective_capacity, floor)`, take the first room's floor as reference,
then stable-sort by `(floor distance to reference, -effective_capacity)`. -/
def sortedBuildingRooms (brooms : List PRoom) : List PRoom :=
  let sorted1 := stableSort key1Le brooms
  match sorted1 with
  | [] => sorted1
  | first :: _ => stableSort (key2Le first.floor) sorted1

/-- Python truthiness of the `best_building` variable (`if best_building:`):
None and the empty string are falsy. -/
def truthy : Option String → Bool
  | none => false
  | some s => decide (s ≠ "")

/-- The `other_rooms` list of allocate_course: rooms whose Block differs
from best_building (comparison with None is always unequal). -/
def otherRooms (rooms : List PRoom) (best : Option String) : List PRoom :=
  match best with
  | none => rooms
  | some b => rooms.filter (fun r => r.block ≠ b)

/-- In-building phase of allocate_course: when a building was selected
(`if best_building:`), fill its rooms in the proximity-aware order,
otherwise leave everything unassigned. -/
def phase1Result (st : AllocState) (rooms : List PRoom) (course : String)
    (students : List Nat) (best : Option String) :
    AllocState × List Nat × List Allocation :=
  if truthy best then
    match best with
    | some b =>
      assign_to_rooms st course students (sortedBuildingRooms (roomsInBlock rooms b))
    | none => (st, students, [])
  else (st, students, [])

/-- RoomAllocator.allocate_course: pick a building, fill its rooms in the
proximity-aware order, then if students remain run the cross-building
fallback over the remaining rooms sorted by
`(-effective_capacity, Block, Floor)`.  Returns the new state, the
allocation records, and the students that could not be placed. -/
def allocate_course (st : AllocState) (rooms : List PRoom) (course : String)
    (students : List Nat) : AllocState × List Allocation × List Nat :=
  let total := students.length
  let best := select_building st course total rooms (blockOrder rooms) none 0
  let phase1 := phase1Result st rooms course students best
  if phase1.2.1 = [] then (phase1.1, phase1.2.2, phase1.2.1)
  else
    let sorted_other := stableSort key3Le (otherRooms rooms best)
    let phase2 := assign_to_rooms phase1.1 course phase1.2.1 sorted_other
    (phase2.1, phase1.2.2 ++ phase2.2.2, phase2.2.1)

/-- RoomAllocator.check_capacity_violations: walk the usage dict (room ids
in first-insertion order), look up the first room record with that id,
and flag it when usage exceeds effective capacity. -/
def check_capacity_violations (st : AllocState) (rooms : List PRoom) : List String :=
  (dedupKeys (rooms.map (·.roomNo))).filterMap (fun rid =>
    match rooms.find? (fun r => r.roomNo = rid) with
    | some room =>
      if room.effective_capacity < (st.usage rid : Int) then some rid else none
    | none => none)

/-- Inverse mapping step of ConflictDetector.check_conflicts: append one
course to the student's list (defaultdict(list) insertion order). -/
def addCourse (acc : List (Nat × List String)) (sid : Nat) (course : String) :
    List (Nat × List String) :=
  if acc.any (fun p => p.1 = sid) then
    acc.map (fun p => if p.1 = sid then (p.1, p.2 ++ [course]) else p)
  else acc ++ [(sid, [course])]

/-- The `student_courses` defaultdict of check_conflicts: for each course
in order, for each enrolled id in order, append the course. -/
def student_courses (cs : List (String × List Nat)) : List (Nat × List String) :=
  cs.foldl (fun acc p => p.2.foldl (fun acc2 sid => addCourse acc2 sid p.1) acc) []

/-- The conflict diagnostics logged by check_conflicts: every student
whose course list has length greater than one, with that list. -/
def conflictPairs (cs : List (String × List Nat)) : List (Nat × List String) :=
  (student_courses cs).filter (fun p => 1 < p.2.length)

/-- ConflictDetector.check_conflicts boolean result: some student carries
more than one course entry. -/
def check_conflicts (cs : List (String × List Nat)) : Bool :=
  (student_courses cs).any (fun p => 1 < p.2.length)

/-- Enrollment lookup of _process_session: ids of rows whose course_code
matches, sorted ascending (`sorted(enrolled)`). -/
def courseStudents (enroll : List (String × Nat)) (course : String) : List Nat :=
  stableSort (fun a b => decide (a ≤ b))
    ((enroll.filter (fun e => e.1 = course)).map (fun e => e.2))

/-- The `course_students` dict of _process_session: one entry per distinct
course code of the session, in first-appearance order. -/
def sessionCourses (enroll : List (String × Nat)) (courses : List String) :
    List (String × List Nat) :=
  (dedupKeys courses).map (fun c => (c, courseStudents enroll c))

/-- Course processing order of _process_session:
`sorted(items, key=len, reverse=True)` — stable descending by enrollment
size, ties in dict order. -/
def courseOrder (cs : List (String × List Nat)) :
    List (String × List Nat) :=
  stableSort (fun a b => decide (b.2.length ≤ a.2.length)) cs

/-- One allocation record tagged with its course, as accumulated into
`room_assignments` by the orchestrator loop. -/
structure CAlloc where
  course : String
  room : PRoom
  students : List Nat
  deriving Repr, DecidableEq

/-- The per-course allocation loop of _process_session: call
allocate_course for each course in order, threading the allocator state
and concatenating the tagged allocation records. -/
def runCourses (rooms : List PRoom) :
    AllocState → List (String × List Nat) → AllocState × List CAlloc
  | st, [] => (st, [])
  | st, (c, l) :: rest =>
    let r := allocate_course st rooms c l
    let next := runCourses rooms r.1 rest
    (next.1, (r.2.1.map (fun a => ⟨c, a.room, a.students⟩)) ++ next.2)

/-- Terminal result of _process_session for one (date, session). -/
inductive SessionResult where
  | noCourses : SessionResult
  | conflict : SessionResult
  | capacityShortfall : SessionResult
  | violation : SessionResult
  | emitted : List CAlloc → AllocState → SessionResult

/-- Plain tag of a session result, for decidable comparisons. -/
inductive OutcomeTag where
  | noCourses
  | conflict
  | capacityShortfall
  | violation
  | emitted
  deriving Repr, DecidableEq

/-- Tag of a session result. -/
def SessionResult.tag : SessionResult → OutcomeTag
  | .noCourses => .noCourses
  | .conflict => .conflict
  | .capacityShortfall => .capacityShortfall
  | .violation => .violation
  | .emitted _ _ => .emitted

/-- Allocation records carried by an emitted session result; aborted
sessions carry none. -/
def SessionResult.allocs : SessionResult → List CAlloc
  | .emitted a _ => a
  | _ => []

/-- Final per-room usage of an emitted session result; aborted sessions
register no usage. -/
def SessionResult.finalUsage : SessionResult → String → Nat
  | .emitted _ st => st.usage
  | _ => fun _ => 0

/-- Final per-(room, course) tracker of an emitted session result. -/
def SessionResult.finalTracker : SessionResult → String → String → Nat
  | .emitted _ st => st.course_tracker
  | _ => fun _ _ => 0

/-- Total number of candidates of the session, summed over its courses
(`total_students`). -/
def totalStudents (cs : List (String × List Nat)) : Nat :=
  (cs.map (fun p => p.2.length)).sum

/-- Raw sum of effective capacities over all prepared rooms
(`total_capacity`); negative effective capacities are summed as they are. -/
def totalCapacity (prooms : List PRoom) : Int :=
  (prooms.map (·.effective_capacity)).sum

/-- ExamScheduler._process_session for one session, after course-string
parsing: resolve enrollments, run the conflict check, compare total
demand against the raw sum of effective capacities, allocate courses in
descending enrollment order, and run the post-hoc violation scan. -/
def process_session (rooms : List Room) (strategy : Strategy) (buffer : Int)
    (enroll : List (String × Nat)) (courses : List String) : SessionResult :=
  if courses = [] then .noCourses
  else
    let cs := sessionCourses enroll courses
    if check_conflicts cs then .conflict
    else
      let prooms := prepRooms rooms buffer
      if totalCapacity prooms < (totalStudents cs : Int) then .capacityShortfall
      else
        let r := runCourses prooms (initState strategy) (courseOrder cs)
        if check_capacity_violations r.1 prooms = [] then .emitted r.2 r.1
        else .violation

/-- Pass A as the spec words it: for each room with available capacity
greater than zero, the slice is the minimum of the remaining candidates
and the available capacity; the room is skipped exactly when the slice is
smaller than the minimum allocation size and candidates would still be
left unassigned after taking it. -/
def specPassA (course : String) :
    AllocState → List Nat → List PRoom → AllocState × List Nat × List Allocation
  | st, remaining, [] => (st, remaining, [])
  | st, remaining, room :: rest =>
    if remaining = [] then (st, remaining, [])
    else
      let available :=
        get_available_capacity st room.roomNo course room.effective_capacity
      if 0 < available then
        let slice := min remaining.length available
        if slice < MIN_ALLOCATION_SIZE ∧ 0 < remaining.length - slice then
          specPassA course st remaining rest
        else
          let st1 := register_allocation st room.roomNo course slice
          let r := specPassA course st1 (remaining.drop slice) rest
          (r.1, r.2.1, ⟨room, remaining.take slice⟩ :: r.2.2)
      else specPassA course st remaining rest

/-- Pass B as the spec words it: walk the same room list again and assign
any non-zero available capacity, with no minimum-slice restriction. -/
def specPassB (course : String) :
    AllocState → List Nat → List PRoom → AllocState × List Nat × List Allocation
  | st, remaining, [] => (st, remaining, [])
  | st, remaining, room :: rest =>
    if remaining = [] then (st, remaining, [])
    else
      let available :=
        get_available_capacity st room.roomNo course room.effective_capacity
      if 0 < available then
        let slice := min remaining.length available
        let st1 := register_allocation st room.roomNo course slice
        let r := specPassB course st1 (remaining.drop slice) rest
        (r.1, r.2.1, ⟨room, remaining.take slice⟩ :: r.2.2)
      else specPassB course st remaining rest

/-- Concatenation of all candidate lists of a session, in course order. -/
def joinAll (cs : List (String × List Nat)) : List Nat :=
  (cs.map Prod.snd).flatten

/-- The (candidate, course) occurrences processed by check_conflicts, in
processing order. -/
def enrollPairs (cs : List (String × List Nat)) : List (Nat × String) :=
  (cs.map (fun p => p.2.map (fun sid => (sid, p.1)))).flatten

/-- Number of course entries recorded for one student in the inverse
mapping (length of the first matching entry, 0 if absent). -/
def countCourses (acc : List (Nat × List String)) (sid : Nat) : Nat :=
  match acc.find? (fun p => p.1 = sid) with
  | some p => p.2.length
  | none => 0

/-- Number of distinct course entries of the session whose candidate list
contains the given id — the claim-side reading of a candidate occurring
in at least two courses' lists. -/
def numListsContaining (cs : List (String × List Nat)) (sid : Nat) : Nat :=
  (cs.filter (fun p => sid ∈ p.2)).length

/-- A state predicate closed under every registration the allocator can
perform with rooms drawn from `R`: registering a count bounded by the
current available capacity of a room of `R` preserves it. -/
def StepClosed (R : List PRoom) (P : AllocState → Prop) : Prop :=
  ∀ st room course cnt, room ∈ R → P st →
    cnt ≤ get_available_capacity st room.roomNo course room.effective_capacity →
    P (register_allocation st room.roomNo course cnt)

/-
  Lemmas: stable sort.
-/

theorem insertLe_perm {α : Type} (le : α → α → Bool) (x : α) (l : List α) :
    (insertLe le x l).Perm (x :: l) := by
  induction l with
  | nil => exact List.Perm.refl _
  | cons y ys ih =>
    simp only [insertLe]
    split
    · exact (ih.cons y).trans (List.Perm.swap x y ys)
    · exact List.Perm.refl _

theorem stableSort_perm {α : Type} (le : α → α → Bool) (l : List α) :
    (stableSort le l).Perm l := by
  induction l with
  | nil => exact List.Perm.refl _
  | cons x xs ih => exact (insertLe_perm le x _).trans (ih.cons x)

theorem mem_stableSort {α : Type} (le : α → α → Bool) (l : List α) (x : α) :
    x ∈ stableSort le l ↔ x ∈ l :=
  (stableSort_perm le l).mem_iff

theorem insertLe_pairwise {α : Type} {le : α → α → Bool}
    (htot : ∀ a b, le a b || le b a)
    (htrans : ∀ a b c, le a b = true → le b c = true → le a c = true)
    (x : α) {l : List α} (hl : l.Pairwise (fun a b => le a b = true)) :
    (insertLe le x l).Pairwise (fun a b => le a b = true) := by
  induction l with
  | nil => simp [insertLe]
  | cons y ys ih =>
    rcases List.pairwise_cons.mp hl with ⟨hy, hys⟩
    simp only [insertLe]
    split
    case isTrue h =>
      refine List.pairwise_cons.mpr ⟨?_, ih hys⟩
      intro z hz
      rcases List.mem_cons.mp ((insertLe_perm le x ys).mem_iff.mp hz) with rfl | hz2
      · simp only [Bool.and_eq_true] at h
        exact h.1
      · exact hy z hz2
    case isFalse h =>
      have hxy : le x y = true := by
        cases hxe : le x y
        · have h1 : le y x = true := by
            have h2 := htot x y
            rw [hxe] at h2
            simpa using h2
          rw [h1, hxe] at h
          simp at h
        · rfl
      refine List.pairwise_cons.mpr ⟨?_, hl⟩
      intro z hz
      rcases List.mem_cons.mp hz with rfl | hz3
      · exact hxy
      · exact htrans x y z hxy (hy z hz3)

theorem stableSort_pairwise {α : Type} {le : α → α → Bool}
    (htot : ∀ a b, le a b || le b a)
    (htrans : ∀ a b c, le a b = true → le b c = true → le a c = true)
    (l : List α) :
    (stableSort le l).Pairwise (fun a b => le a b = true) := by
  induction l with
  | nil => simp [stableSort]
  | cons x xs ih => exact insertLe_pairwise htot htrans x ih

theorem stableSort_head_min {α : Type} {le : α → α → Bool}
    (htot : ∀ a b, le a b || le b a)
    (htrans : ∀ a b c, le a b = true → le b c = true → le a c = true)
    {l : List α} {first : α} {rest : List α}
    (h : stableSort le l = first :: rest) :
    ∀ r ∈ l, le first r = true := by
  intro r hr
  have hr2 : r ∈ first :: rest := by
    rw [← h, mem_stableSort]
    exact hr
  rcases List.mem_cons.mp hr2 with rfl | hr3
  · have h2 := htot r r
    cases h3 : le r r
    · rw [h3] at h2
      simp at h2
    · rfl
  · have hp := stableSort_pairwise htot htrans l
    rw [h] at hp
    exact (List.pairwise_cons.mp hp).1 r hr3

/-
  Lemmas: dedupKeys and find?.
-/

theorem mem_dedupKeys_aux {α : Type} [DecidableEq α] (l : List α) :
    ∀ (acc : List α) (x : α),
      x ∈ l.foldl (fun acc x => if x ∈ acc then acc else acc ++ [x]) acc ↔
        x ∈ acc ∨ x ∈ l := by
  induction l with
  | nil => simp
  | cons y ys ih =>
    intro acc x
    simp only [List.foldl_cons]
    split
    case isTrue h =>
      rw [ih]
      constructor
      · rintro (hx | hx)
        · exact Or.inl hx
        · exact Or.inr (List.mem_cons_of_mem y hx)
      · rintro (hx | hx)
        · exact Or.inl hx
        · rcases List.mem_cons.mp hx with rfl | hx2
          · exact Or.inl h
          · exact Or.inr hx2
    case isFalse h =>
      rw [ih]
      constructor
      · rintro (hx | hx)
        · rcases List.mem_append.mp hx with hx2 | hx2
          · exact Or.inl hx2
          · simp at hx2
            subst hx2
            exact Or.inr (List.mem_cons_self _ _)
        · exact Or.inr (List.mem_cons_of_mem y hx)
      · rintro (hx | hx)
        · exact Or.inl (List.mem_append.mpr (Or.inl hx))
        · rcases List.mem_cons.mp hx with rfl | hx2
          · exact Or.inl (List.mem_append.mpr (Or.inr (by simp)))
          · exact Or.inr hx2

theorem mem_dedupKeys {α : Type} [DecidableEq α] (l : List α) (x : α) :
    x ∈ dedupKeys l ↔ x ∈ l := by
  rw [dedupKeys, mem_dedupKeys_aux]
  simp

theorem find?_of_nodup {R : List PRoom}
    (hnd : (R.map (fun r => r.roomNo)).Nodup) {r : PRoom} (hr : r ∈ R) :
    R.find? (fun q => q.roomNo = r.roomNo) = some r := by
  induction R with
  | nil => cases hr
  | cons q qs ih =>
    rw [List.map_cons] at hnd
    rcases List.nodup_cons.mp hnd with ⟨hq, hqs⟩
    by_cases h : q.roomNo = r.roomNo
    · have hrq : r = q := by
        rcases List.mem_cons.mp hr with rfl | hr2
        · rfl
        · exact absurd (h ▸ List.mem_map_of_mem (fun r => r.roomNo) hr2) hq
      rw [List.find?_cons_of_pos _ (by simp [h])]
      rw [hrq]
    · have hr2 : r ∈ qs := by
        rcases List.mem_cons.mp hr with rfl | hr3
        · exact absurd rfl h
        · exact hr3
      rw [List.find?_cons_of_neg _ (by simp [h])]
      exact ih hqs hr2

/-
  Lemmas: registration and available capacity.
-/

theorem register_usage (st : AllocState) (r c : String) (n : Nat) (rid : String) :
    (register_allocation st r c n).usage rid =
      if rid = r then st.usage rid + n else st.usage rid := by
  simp [register_allocation]

theorem register_strategy (st : AllocState) (r c : String) (n : Nat) :
    (register_allocation st r c n).strategy = st.strategy := rfl

theorem register_tracker (st : AllocState) (r c : String) (n : Nat) (rid cid : String) :
    (register_allocation st r c n).course_tracker rid cid =
      if st.strategy = .sparse ∧ rid = r ∧ cid = c then st.course_tracker rid cid + n
      else st.course_tracker rid cid := by
  cases hs : st.strategy <;> simp [register_allocation, hs]

theorem avail_pos_cap (st : AllocState) (rid c : String) (cap : Int)
    (h : 0 < get_available_capacity st rid c cap) : 0 < cap := by
  unfold get_available_capacity at h
  cases hs : st.strategy <;> simp only [hs] at h <;> omega

theorem avail_le_headroom (st : AllocState) (rid c : String) (cap : Int) :
    (get_available_capacity st rid c cap : Int) + st.usage rid ≤
      max ((st.usage rid : Int)) cap := by
  unfold get_available_capacity
  cases hs : st.strategy <;> simp only [hs]
  · omega
  · rw [Int.min_def]
    split <;> omega

theorem avail_le_course_limit (st : AllocState) (rid c : String) (cap : Int)
    (hs : st.strategy = .sparse) :
    (get_available_capacity st rid c cap : Int) + st.course_tracker rid c ≤
      max ((st.course_tracker rid c : Int)) (Int.tdiv cap 2) := by
  unfold get_available_capacity
  simp only [hs]
  rw [Int.min_def]
  split <;> omega

/-
  Lemmas: the two filling passes.
-/

theorem passA_join (course : String) (rooms : List PRoom) :
    ∀ (st : AllocState) (rem : List Nat),
      ((passA course st rem rooms).2.2.map (fun a => a.students)).flatten
          ++ (passA course st rem rooms).2.1 = rem := by
  induction rooms with
  | nil => intro st rem; simp [passA]
  | cons room rest ih =>
    intro st rem
    by_cases h1 : rem = []
    · subst h1; simp [passA]
    · simp only [passA, if_neg h1]
      by_cases h2 :
          0 < get_available_capacity st room.roomNo course room.effective_capacity
      · simp only [if_pos h2]
        by_cases h3 :
            min rem.length
                (get_available_capacity st room.roomNo course room.effective_capacity) <
              MIN_ALLOCATION_SIZE ∧
            min rem.length
                (get_available_capacity st room.roomNo course room.effective_capacity) <
              rem.length
        · simp only [if_pos h3]; exact ih st rem
        · simp only [if_neg h3, List.map_cons, List.flatten_cons, List.append_assoc, ih]
          exact List.take_append_drop _ rem
      · simp only [if_neg h2]; exact ih st rem

theorem passB_join (course : String) (rooms : List PRoom) :
    ∀ (st : AllocState) (rem : List Nat),
      ((passB course st rem rooms).2.2.map (fun a => a.students)).flatten
          ++ (passB course st rem rooms).2.1 = rem := by
  induction rooms with
  | nil => intro st rem; simp [passB]
  | cons room rest ih =>
    intro st rem
    by_cases h1 : rem = []
    · subst h1; simp [passB]
    · simp only [passB, if_neg h1]
      by_cases h2 :
          0 < get_available_capacity st room.roomNo course room.effective_capacity
      · simp only [if_pos h2, List.map_cons, List.flatten_cons, List.append_assoc, ih]
        exact List.take_append_drop _ rem
      · simp only [if_neg h2]; exact ih st rem

theorem passA_usage (course : String) (rooms : List PRoom) :
    ∀ (st : AllocState) (rem : List Nat) (rid : String),
      (passA course st rem rooms).1.usage rid =
        st.usage rid +
          (((passA course st rem rooms).2.2.filter
              (fun a => a.room.roomNo = rid)).map (fun a => a.students.length)).sum := by
  induction rooms with
  | nil => intro st rem rid; simp [passA]
  | cons room rest ih =>
    intro st rem rid
    by_cases h1 : rem = []
    · subst h1; simp [passA]
    · simp only [passA, if_neg h1]
      by_cases h2 :
          0 < get_available_capacity st room.roomNo course room.effective_capacity
      · simp only [if_pos h2]
        by_cases h3 :
            min rem.length
                (get_available_capacity st room.roomNo course room.effective_capacity) <
              MIN_ALLOCATION_SIZE ∧
            min rem.length
                (get_available_capacity st room.roomNo course room.effective_capacity) <
              rem.length
        · simp only [if_pos h3]; exact ih st rem rid
        · simp only [if_neg h3]
          rw [ih]
          rw [register_usage]
          have hlen : (rem.take (min rem.length
              (get_available_capacity st room.roomNo course room.effective_capacity))).length =
              min rem.length
                (get_available_capacity st room.roomNo course room.effective_capacity) := by
            rw [List.length_take]
            omega
          by_cases hr : room.roomNo = rid
          · simp [hr, hlen]
            omega
          · have hr2 : ¬ rid = room.roomNo := fun h => hr h.symm
            simp [hr, hr2]
      · simp only [if_neg h2]; exact ih st rem rid

theorem passB_usage (course : String) (rooms : List PRoom) :
    ∀ (st : AllocState) (rem : List Nat) (rid : String),
      (passB course st rem rooms).1.usage rid =
        st.usage rid +
          (((passB course st rem rooms).2.2.filter
              (fun a => a.room.roomNo = rid)).map (fun a => a.students.length)).sum := by
  induction rooms with
  | nil => intro st rem rid; simp [passB]
  | cons room rest ih =>
    intro st rem rid
    by_cases h1 : rem = []
    · subst h1; simp [passB]
    · simp only [passB, if_neg h1]
      by_cases h2 :
          0 < get_available_capacity st room.roomNo course room.effective_capacity
      · simp only [if_pos h2]
        rw [ih]
        rw [register_usage]
        have hlen : (rem.take (min rem.length
            (get_available_capacity st room.roomNo course room.effective_capacity))).length =
            min rem.length
              (get_available_capacity st room.roomNo course room.effective_capacity) := by
          rw [List.length_take]
          omega
        by_cases hr : room.roomNo = rid
        · simp [hr, hlen]
          omega
        · have hr2 : ¬ rid = room.roomNo := fun h => hr h.symm
          simp [hr, hr2]
      · simp only [if_neg h2]; exact ih st rem rid

theorem passA_closed {R : List PRoom} {P : AllocState → Prop} (hcl : StepClosed R P)
    (course : String) (rooms : List PRoom) (hsub : ∀ r ∈ rooms, r ∈ R) :
    ∀ (st : AllocState) (rem : List Nat), P st → P (passA course st rem rooms).1 := by
  induction rooms with
  | nil => intro st rem hP; simpa [passA] using hP
  | cons room rest ih =>
    intro st rem hP
    have hsub2 : ∀ r ∈ rest, r ∈ R := fun r hr => hsub r (List.mem_cons_of_mem _ hr)
    have hroom : room ∈ R := hsub room (List.mem_cons_self _ _)
    by_cases h1 : rem = []
    · subst h1; simpa [passA] using hP
    · simp only [passA, if_neg h1]
      by_cases h2 :
          0 < get_available_capacity st room.roomNo course room.effective_capacity
      · simp only [if_pos h2]
        by_cases h3 :
            min rem.length
                (get_available_capacity st room.roomNo course room.effective_capacity) <
              MIN_ALLOCATION_SIZE ∧
            min rem.length
                (get_available_capacity st room.roomNo course room.effective_capacity) <
              rem.length
        · simp only [if_pos h3]; exact ih hsub2 st rem hP
        · simp only [if_neg h3]
          exact ih hsub2 _ _ (hcl st room course _ hroom hP (min_le_right _ _))
      · simp only [if_neg h2]; exact ih hsub2 st rem hP

theorem passB_closed {R : List PRoom} {P : AllocState → Prop} (hcl : StepClosed R P)
    (course : String) (rooms : List PRoom) (hsub : ∀ r ∈ rooms, r ∈ R) :
    ∀ (st : AllocState) (rem : List Nat), P st → P (passB course st rem rooms).1 := by
  induction rooms with
  | nil => intro st rem hP; simpa [passB] using hP
  | cons room rest ih =>
    intro st rem hP
    have hsub2 : ∀ r ∈ rest, r ∈ R := fun r hr => hsub r (List.mem_cons_of_mem _ hr)
    have hroom : room ∈ R := hsub room (List.mem_cons_self _ _)
    by_cases h1 : rem = []
    · subst h1; simpa [passB] using hP
    · simp only [passB, if_neg h1]
      by_cases h2 :
          0 < get_available_capacity st room.roomNo course room.effective_capacity
      · simp only [if_pos h2]
        exact ih hsub2 _ _ (hcl st room course _ hroom hP (min_le_right _ _))
      · simp only [if_neg h2]; exact ih hsub2 st rem hP

theorem passA_pos (course : String) (rooms : List PRoom) :
    ∀ (st : AllocState) (rem : List Nat),
      ∀ a ∈ (passA course st rem rooms).2.2, 0 < a.room.effective_capacity := by
  induction rooms with
  | nil => intro st rem a ha; simp [passA] at ha
  | cons room rest ih =>
    intro st rem a ha
    by_cases h1 : rem = []
    · subst h1; simp [passA] at ha
    · simp only [passA, if_neg h1] at ha
      by_cases h2 :
          0 < get_available_capacity st room.roomNo course room.effective_capacity
      · simp only [if_pos h2] at ha
        by_cases h3 :
            min rem.length
                (get_available_capacity st room.roomNo course room.effective_capacity) <
              MIN_ALLOCATION_SIZE ∧
            min rem.length
                (get_available_capacity st room.roomNo course room.effective_capacity) <
              rem.length
        · simp only [if_pos h3] at ha; exact ih st rem a ha
        · simp only [if_neg h3] at ha
          rcases List.mem_cons.mp ha with rfl | ha2
          · exact avail_pos_cap _ _ _ _ h2
          · exact ih _ _ a ha2
      · simp only [if_neg h2] at ha; exact ih st rem a ha

theorem passB_pos (course : String) (rooms : List PRoom) :
    ∀ (st : AllocState) (rem : List Nat),
      ∀ a ∈ (passB course st rem rooms).2.2, 0 < a.room.effective_capacity := by
  induction rooms with
  | nil => intro st rem a ha; simp [passB] at ha
  | cons room rest ih =>
    intro st rem a ha
    by_cases h1 : rem = []
    · subst h1; simp [passB] at ha
    · simp only [passB, if_neg h1] at ha
      by_cases h2 :
          0 < get_available_capacity st room.roomNo course room.effective_capacity
      · simp only [if_pos h2] at ha
        rcases List.mem_cons.mp ha with rfl | ha2
        · exact avail_pos_cap _ _ _ _ h2
        · exact ih _ _ a ha2
      · simp only [if_neg h2] at ha; exact ih st rem a ha

theorem passA_eq_spec (course : String) (rooms : List PRoom) :
    ∀ (st : AllocState) (rem : List Nat),
      passA course st rem rooms = specPassA course st rem rooms := by
  induction rooms with
  | nil => intro st rem; rfl
  | cons room rest ih =>
    intro st rem
    by_cases h1 : rem = []
    · subst h1; simp [passA, specPassA]
    · simp only [passA, specPassA, if_neg h1]
      by_cases h2 :
          0 < get_available_capacity st room.roomNo course room.effective_capacity
      · simp only [if_pos h2]
        have hiff :
            (min rem.length
                (get_available_capacity st room.roomNo course room.effective_capacity) <
              MIN_ALLOCATION_SIZE ∧
            0 < rem.length - min rem.length
                (get_available_capacity st room.roomNo course room.effective_capacity)) ↔
            (min rem.length
                (get_available_capacity st room.roomNo course room.effective_capacity) <
              MIN_ALLOCATION_SIZE ∧
            min rem.length
                (get_available_capacity st room.roomNo course room.effective_capacity) <
              rem.length) := by
          omega
        by_cases h3 :
            min rem.length
                (get_available_capacity st room.roomNo course room.effective_capacity) <
              MIN_ALLOCATION_SIZE ∧
            min rem.length
                (get_available_capacity st room.roomNo course room.effective_capacity) <
              rem.length
        · rw [if_pos h3, if_pos (hiff.mpr h3)]
          exact ih st rem
        · rw [if_neg h3, if_neg (fun h => h3 (hiff.mp h))]
          rw [ih]
      · simp only [if_neg h2]; exact ih st rem

theorem passB_eq_spec (course : String) (rooms : List PRoom) :
    ∀ (st : AllocState) (rem : List Nat),
      passB course st rem rooms = specPassB course st rem rooms := by
  induction rooms with
  | nil => intro st rem; rfl
  | cons room rest ih =>
    intro st rem
    by_cases h1 : rem = []
    · subst h1; simp [passB, specPassB]
    · simp only [passB, specPassB, if_neg h1]
      by_cases h2 :
          0 < get_available_capacity st room.roomNo course room.effective_capacity
      · simp only [if_pos h2]
        rw [ih]
      · simp only [if_neg h2]; exact ih st rem

/-
  Lemmas: _assign_to_rooms.
-/

theorem assign_join (st : AllocState) (course : String) (students : List Nat)
    (rooms : List PRoom) :
    ((assign_to_rooms st course students rooms).2.2.map (fun a => a.students)).flatten
        ++ (assign_to_rooms st course students rooms).2.1 = students := by
  simp only [assign_to_rooms]
  by_cases h : (passA course st students rooms).2.1 = []
  · simp only [if_pos h]
    exact passA_join course rooms st students
  · simp only [if_neg h, List.map_append, List.flatten_append, List.append_assoc]
    rw [passB_join]
    exact passA_join course rooms st students

theorem assign_usage (st : AllocState) (course : String) (students : List Nat)
    (rooms : List PRoom) (rid : String) :
    (assign_to_rooms st course students rooms).1.usage rid =
      st.usage rid +
        (((assign_to_rooms st course students rooms).2.2.filter
            (fun a => a.room.roomNo = rid)).map (fun a => a.students.length)).sum := by
  simp only [assign_to_rooms]
  by_cases h : (passA course st students rooms).2.1 = []
  · simp only [if_pos h]
    exact passA_usage course rooms st students rid
  · simp only [if_neg h, List.filter_append, List.map_append, List.sum_append]
    rw [passB_usage, passA_usage]
    omega

theorem assign_closed {R : List PRoom} {P : AllocState → Prop} (hcl : StepClosed R P)
    (st : AllocState) (course : String) (students : List Nat) (rooms : List PRoom)
    (hsub : ∀ r ∈ rooms, r ∈ R) (hP : P st) :
    P (assign_to_rooms st course students rooms).1 := by
  simp only [assign_to_rooms]
  by_cases h : (passA course st students rooms).2.1 = []
  · simp only [if_pos h]
    exact passA_closed hcl course rooms hsub st students hP
  · simp only [if_neg h]
    exact passB_closed hcl course rooms hsub _ _
      (passA_closed hcl course rooms hsub st students hP)

theorem assign_pos (st : AllocState) (course : String) (students : List Nat)
    (rooms : List PRoom) :
    ∀ a ∈ (assign_to_rooms st course students rooms).2.2,
      0 < a.room.effective_capacity := by
  simp only [assign_to_rooms]
  by_cases h : (passA course st students rooms).2.1 = []
  · simp only [if_pos h]
    exact passA_pos course rooms st students
  · simp only [if_neg h]
    intro a ha
    rcases List.mem_append.mp ha with ha2 | ha2
    · exact passA_pos course rooms st students a ha2
    · exact passB_pos course rooms _ _ a ha2

/-
  Lemmas: allocate_course.
-/

theorem mem_sortedBuildingRooms {l : List PRoom} {r : PRoom}
    (h : r ∈ sortedBuildingRooms l) : r ∈ l := by
  unfold sortedBuildingRooms at h
  rcases hs : stableSort key1Le l with _ | ⟨first, rest⟩
  · rw [hs] at h
    cases h
  · rw [hs] at h
    have h2 := (mem_stableSort _ _ _).mp h
    rw [← hs] at h2
    exact (mem_stableSort _ _ _).mp h2

theorem mem_otherRooms {rooms : List PRoom} {best : Option String} {r : PRoom}
    (h : r ∈ otherRooms rooms best) : r ∈ rooms := by
  unfold otherRooms at h
  cases best with
  | none => exact h
  | some b => exact List.mem_of_mem_filter h

theorem phase1_join (st : AllocState) (rooms : List PRoom) (course : String)
    (students : List Nat) (best : Option String) :
    ((phase1Result st rooms course students best).2.2.map (fun a => a.students)).flatten
        ++ (phase1Result st rooms course students best).2.1 = students := by
  unfold phase1Result
  by_cases h : truthy best
  · rw [if_pos h]
    cases best with
    | none => simp [truthy] at h
    | some b => exact assign_join st course students _
  · rw [if_neg h]
    simp

theorem phase1_usage (st : AllocState) (rooms : List PRoom) (course : String)
    (students : List Nat) (best : Option String) (rid : String) :
    (phase1Result st rooms course students best).1.usage rid =
      st.usage rid +
        (((phase1Result st rooms course students best).2.2.filter
            (fun a => a.room.roomNo = rid)).map (fun a => a.students.length)).sum := by
  unfold phase1Result
  by_cases h : truthy best
  · rw [if_pos h]
    cases best with
    | none => simp [truthy] at h
    | some b => exact assign_usage st course students _ rid
  · rw [if_neg h]
    simp

theorem phase1_closed {R : List PRoom} {P : AllocState → Prop} (hcl : StepClosed R P)
    (st : AllocState) (rooms : List PRoom) (course : String) (students : List Nat)
    (best : Option String) (hsub : ∀ r ∈ rooms, r ∈ R) (hP : P st) :
    P (phase1Result st rooms course students best).1 := by
  unfold phase1Result
  by_cases h : truthy best
  · rw [if_pos h]
    cases best with
    | none => simpa using hP
    | some b =>
      exact assign_closed hcl st course students _
        (fun r hr => hsub r (List.mem_of_mem_filter (mem_sortedBuildingRooms hr))) hP
  · rw [if_neg h]
    exact hP

theorem phase1_pos (st : AllocState) (rooms : List PRoom) (course : String)
    (students : List Nat) (best : Option String) :
    ∀ a ∈ (phase1Result st rooms course students best).2.2,
      0 < a.room.effective_capacity := by
  unfold phase1Result
  by_cases h : truthy best
  · rw [if_pos h]
    cases best with
    | none => simp [truthy] at h
    | some b => exact assign_pos st course students _
  · rw [if_neg h]
    simp

theorem allocate_join (st : AllocState) (rooms : List PRoom) (course : String)
    (students : List Nat) :
    ((allocate_course st rooms course students).2.1.map (fun a => a.students)).flatten
        ++ (allocate_course st rooms course students).2.2 = students := by
  simp only [allocate_course]
  by_cases h : (phase1Result st rooms course students
      (select_building st course students.length rooms (blockOrder rooms) none 0)).2.1 = []
  · simp only [if_pos h]
    exact phase1_join st rooms course students _
  · simp only [if_neg h, List.map_append, List.flatten_append, List.append_assoc]
    rw [assign_join]
    exact phase1_join st rooms course students _

theorem allocate_usage (st : AllocState) (rooms : List PRoom) (course : String)
    (students : List Nat) (rid : String) :
    (allocate_course st rooms course students).1.usage rid =
      st.usage rid +
        (((allocate_course st rooms course students).2.1.filter
            (fun a => a.room.roomNo = rid)).map (fun a => a.students.length)).sum := by
  simp only [allocate_course]
  by_cases h : (phase1Result st rooms course students
      (select_building st course students.length rooms (blockOrder rooms) none 0)).2.1 = []
  · simp only [if_pos h]
    exact phase1_usage st rooms course students _ rid
  · simp only [if_neg h, List.filter_append, List.map_append, List.sum_append]
    rw [assign_usage, phase1_usage]
    omega

theorem allocate_closed {R : List PRoom} {P : AllocState → Prop}
    (st : AllocState) (course : String) (students : List Nat)
    (hcl : StepClosed R P) (hP : P st) :
    P (allocate_course st R course students).1 := by
  simp only [allocate_course]
  by_cases h : (phase1Result st R course students
      (select_building st course students.length R (blockOrder R) none 0)).2.1 = []
  · simp only [if_pos h]
    exact phase1_closed hcl st R course students _ (fun r hr => hr) hP
  · simp only [if_neg h]
    exact assign_closed hcl _ course _ _
      (fun r hr => mem_otherRooms ((mem_stableSort _ _ _).mp hr))
      (phase1_closed hcl st R course students _ (fun r hr => hr) hP)

theorem allocate_pos (st : AllocState) (rooms : List PRoom) (course : String)
    (students : List Nat) :
    ∀ a ∈ (allocate_course st rooms course students).2.1,
      0 < a.room.effective_capacity := by
  simp only [allocate_course]
  by_cases h : (phase1Result st rooms course students
      (select_building st course students.length rooms (blockOrder rooms) none 0)).2.1 = []
  · simp only [if_pos h]
    exact phase1_pos st rooms course students _
  · simp only [if_neg h]
    intro a ha
    rcases List.mem_append.mp ha with ha2 | ha2
    · exact phase1_pos st rooms course students _ a ha2
    · exact assign_pos _ course _ _ a ha2

theorem mem_students_of_flatten {allocs : List Allocation} {rem input : List Nat}
    (h : (allocs.map (fun a => a.students)).flatten ++ rem = input)
    {a : Allocation} (ha : a ∈ allocs) {sid : Nat} (hs : sid ∈ a.students) :
    sid ∈ input := by
  rw [← h]
  refine List.mem_append.mpr (Or.inl ?_)
  exact List.mem_flatten.mpr ⟨a.students, List.mem_map_of_mem _ ha, hs⟩

/-
  Lemmas: the per-course loop of the orchestrator.
-/

theorem runCourses_closed {R : List PRoom} {P : AllocState → Prop} (hcl : StepClosed R P) :
    ∀ (cs : List (String × List Nat)) (st : AllocState), P st → P (runCourses R st cs).1 := by
  intro cs
  induction cs with
  | nil => intro st hP; simpa [runCourses] using hP
  | cons p rest ih =>
    intro st hP
    rcases p with ⟨c, l⟩
    simp only [runCourses]
    exact ih _ (allocate_closed st c l hcl hP)

theorem runCourses_mem {R : List PRoom} :
    ∀ (cs : List (String × List Nat)) (st : AllocState),
      ∀ a ∈ (runCourses R st cs).2,
        ∃ l, (a.course, l) ∈ cs ∧ ∀ sid ∈ a.students, sid ∈ l := by
  intro cs
  induction cs with
  | nil => intro st a ha; simp [runCourses] at ha
  | cons p rest ih =>
    intro st a ha
    rcases p with ⟨c, l⟩
    simp only [runCourses] at ha
    rcases List.mem_append.mp ha with ha2 | ha2
    · rcases List.mem_map.mp ha2 with ⟨a0, ha0, rfl⟩
      refine ⟨l, List.mem_cons_self _ _, ?_⟩
      intro sid hs
      exact mem_students_of_flatten (allocate_join st R c l) ha0 hs
    · rcases ih _ a ha2 with ⟨l2, hl2, hmem⟩
      exact ⟨l2, List.mem_cons_of_mem _ hl2, hmem⟩

theorem runCourses_usage {R : List PRoom} :
    ∀ (cs : List (String × List Nat)) (st : AllocState) (rid : String),
      (runCourses R st cs).1.usage rid =
        st.usage rid +
          (((runCourses R st cs).2.filter (fun a => a.room.roomNo = rid)).map
            (fun a => a.students.length)).sum := by
  intro cs
  induction cs with
  | nil => intro st rid; simp [runCourses]
  | cons p rest ih =>
    intro st rid
    rcases p with ⟨c, l⟩
    simp only [runCourses, List.filter_append, List.map_append, List.sum_append]
    rw [ih, allocate_usage]
    have hmap : (((allocate_course st R c l).2.1.map
          (fun a => (⟨c, a.room, a.students⟩ : CAlloc))).filter
            (fun a => a.room.roomNo = rid)).map (fun a => a.students.length) =
        (((allocate_course st R c l).2.1.filter
          (fun a => a.room.roomNo = rid)).map (fun a => a.students.length)) := by
      induction (allocate_course st R c l).2.1 with
      | nil => rfl
      | cons a0 arest ih2 =>
        by_cases h : a0.room.roomNo = rid
        · simp [h, ih2]
        · simp [h, ih2]
    rw [hmap]
    omega

theorem runCourses_filter_nodup {R : List PRoom} :
    ∀ (cs : List (String × List Nat)),
      (cs.map Prod.fst).Nodup → (∀ p ∈ cs, p.2.Nodup) →
      ∀ (st : AllocState) (c : String),
        ((((runCourses R st cs).2.filter (fun a => a.course = c)).map
          (fun a => a.students)).flatten).Nodup := by
  intro cs
  induction cs with
  | nil => intro _ _ st c; simp [runCourses]
  | cons p rest ih =>
    intro hnd hl st c
    rcases p with ⟨c0, l0⟩
    rw [List.map_cons] at hnd
    rcases List.nodup_cons.mp hnd with ⟨hc0, hndrest⟩
    simp only [runCourses, List.filter_append, List.map_append, List.flatten_append]
    by_cases hc : c = c0
    · subst hc
      have hrec : ((runCourses R (allocate_course st R c l0).1 rest).2.filter
          (fun a => a.course = c)) = [] := by
        rw [List.filter_eq_nil_iff]
        intro a ha hac
        rcases runCourses_mem rest _ a ha with ⟨l2, hl2, _⟩
        have hacc : a.course = c := by simpa using hac
        apply hc0
        exact List.mem_map.mpr ⟨(a.course, l2), hl2, by rw [hacc]⟩
      rw [hrec]
      have htag : (((allocate_course st R c l0).2.1.map
            (fun a => (⟨c, a.room, a.students⟩ : CAlloc))).filter
              (fun a => a.course = c)).map (fun a => a.students) =
          (allocate_course st R c l0).2.1.map (fun a => a.students) := by
        induction (allocate_course st R c l0).2.1 with
        | nil => rfl
        | cons a0 arest ih2 => simp [ih2]
      rw [htag]
      have hsub : ((allocate_course st R c l0).2.1.map
          (fun a => a.students)).flatten.Sublist l0 := by
        conv_rhs => rw [← allocate_join st R c l0]
        exact List.sublist_append_left _ _
      simp only [List.map_nil, List.flatten_nil, List.append_nil]
      exact (hl (c, l0) (List.mem_cons_self _ _)).sublist hsub
    · have htag : (((allocate_course st R c0 l0).2.1.map
            (fun a => (⟨c0, a.room, a.students⟩ : CAlloc))).filter
              (fun a => a.course = c)) = [] := by
        rw [List.filter_eq_nil_iff]
        intro a ha hac
        rcases List.mem_map.mp ha with ⟨a0, _, rfl⟩
        have hacc : c0 = c := by simpa using hac
        exact hc hacc.symm
      rw [htag]
      simp only [List.map_nil, List.flatten_nil, List.nil_append]
      exact ih hndrest (fun p hp => hl p (List.mem_cons_of_mem _ hp)) _ c

/-
  Lemmas: inversion of the orchestrator branches.
-/

theorem process_session_emitted {rooms : List Room} {strategy : Strategy} {buffer : Int}
    {enroll : List (String × Nat)} {courses : List String}
    {allocs : List CAlloc} {st : AllocState}
    (h : process_session rooms strategy buffer enroll courses = .emitted allocs st) :
    check_conflicts (sessionCourses enroll courses) = false ∧
    st = (runCourses (prepRooms rooms buffer) (initState strategy)
      (courseOrder (sessionCourses enroll courses))).1 ∧
    allocs = (runCourses (prepRooms rooms buffer) (initState strategy)
      (courseOrder (sessionCourses enroll courses))).2 ∧
    check_capacity_violations st (prepRooms rooms buffer) = [] := by
  simp only [process_session] at h
  by_cases h1 : courses = []
  · rw [if_pos h1] at h; exact SessionResult.noConfusion h
  · rw [if_neg h1] at h
    by_cases h2 : check_conflicts (sessionCourses enroll courses) = true
    · rw [if_pos h2] at h; exact SessionResult.noConfusion h
    · rw [if_neg h2] at h
      by_cases h3 : totalCapacity (prepRooms rooms buffer) <
          (totalStudents (sessionCourses enroll courses) : Int)
      · rw [if_pos h3] at h; exact SessionResult.noConfusion h
      · rw [if_neg h3] at h
        by_cases h4 : check_capacity_violations
            (runCourses (prepRooms rooms buffer) (initState strategy)
              (courseOrder (sessionCourses enroll courses))).1 (prepRooms rooms buffer) = []
        · rw [if_pos h4] at h
          injection h with ha hs
          refine ⟨Bool.eq_false_iff.mpr h2, hs.symm, ha.symm, ?_⟩
          rw [hs.symm]
          exact h4
        · rw [if_neg h4] at h; exact SessionResult.noConfusion h

theorem process_session_conflict (rooms : List Room) (strategy : Strategy) (buffer : Int)
    (enroll : List (String × Nat)) (courses : List String)
    (h1 : courses ≠ []) (h2 : check_conflicts (sessionCourses enroll courses) = true) :
    process_session rooms strategy buffer enroll courses = .conflict := by
  simp only [process_session]
  rw [if_neg h1, if_pos h2]

theorem process_session_shortfall (rooms : List Room) (strategy : Strategy) (buffer : Int)
    (enroll : List (String × Nat)) (courses : List String)
    (h1 : courses ≠ []) (h2 : check_conflicts (sessionCourses enroll courses) = false)
    (h3 : totalCapacity (prepRooms rooms buffer) <
      (totalStudents (sessionCourses enroll courses) : Int)) :
    process_session rooms strategy buffer enroll courses = .capacityShortfall := by
  simp only [process_session]
  rw [if_neg h1, if_neg (by simp [h2]), if_pos h3]

theorem process_session_proceeds {rooms : List Room} {strategy : Strategy} {buffer : Int}
    {enroll : List (String × Nat)} {courses : List String}
    (h1 : courses ≠ []) (h2 : check_conflicts (sessionCourses enroll courses) = false)
    (h3 : (totalStudents (sessionCourses enroll courses) : Int) ≤
      totalCapacity (prepRooms rooms buffer)) :
    (process_session rooms strategy buffer enroll courses).tag = .emitted ∨
      (process_session rooms strategy buffer enroll courses).tag = .violation := by
  simp only [process_session]
  rw [if_neg h1, if_neg (by simp [h2]), if_neg (not_lt.mpr h3)]
  by_cases h4 : check_capacity_violations
      (runCourses (prepRooms rooms buffer) (initState strategy)
        (courseOrder (sessionCourses enroll courses))).1 (prepRooms rooms buffer) = []
  · rw [if_pos h4]
    exact Or.inl rfl
  · rw [if_neg h4]
    exact Or.inr rfl

theorem process_session_not_violation {rooms : List Room} {strategy : Strategy}
    {buffer : Int} {enroll : List (String × Nat)} {courses : List String}
    (hcheck : check_capacity_violations
      (runCourses (prepRooms rooms buffer) (initState strategy)
        (courseOrder (sessionCourses enroll courses))).1 (prepRooms rooms buffer) = []) :
    (process_session rooms strategy buffer enroll courses).tag ≠ .violation := by
  simp only [process_session]
  by_cases h1 : courses = []
  · rw [if_pos h1]; intro h; cases h
  · rw [if_neg h1]
    by_cases h2 : check_conflicts (sessionCourses enroll courses) = true
    · rw [if_pos h2]; intro h; cases h
    · rw [if_neg h2]
      by_cases h3 : totalCapacity (prepRooms rooms buffer) <
          (totalStudents (sessionCourses enroll courses) : Int)
      · rw [if_pos h3]; intro h; cases h
      · rw [if_neg h3, if_pos hcheck]
        intro h; cases h

/-
  Lemmas: the conflict detector.
-/

theorem find?_mapAdd (s : Nat) (c : String) (sid : Nat) :
    ∀ acc : List (Nat × List String),
      (acc.map (fun p => if p.1 = s then (p.1, p.2 ++ [c]) else p)).find?
          (fun p => p.1 = sid) =
        (acc.find? (fun p => p.1 = sid)).map
          (fun p => if p.1 = s then (p.1, p.2 ++ [c]) else p) := by
  intro acc
  induction acc with
  | nil => rfl
  | cons p ps ih =>
    by_cases h : p.1 = sid
    · have hg : (if p.1 = s then (p.1, p.2 ++ [c]) else p).1 = sid := by
        split <;> exact h
      rw [List.map_cons, List.find?_cons_of_pos _ (by simp [hg]),
        List.find?_cons_of_pos _ (by simp [h])]
      rfl
    · have hg : ¬ (if p.1 = s then (p.1, p.2 ++ [c]) else p).1 = sid := by
        split <;> exact h
      rw [List.map_cons, List.find?_cons_of_neg _ (by simp [hg]),
        List.find?_cons_of_neg _ (by simp [h]), ih]

theorem countCourses_addCourse (acc : List (Nat × List String)) (s : Nat) (c : String)
    (sid : Nat) :
    countCourses (addCourse acc s c) sid =
      countCourses acc sid + (if sid = s then 1 else 0) := by
  unfold addCourse countCourses
  by_cases hany : acc.any (fun p => decide (p.1 = s)) = true
  · rw [if_pos hany, find?_mapAdd]
    cases hfind : acc.find? (fun p => p.1 = sid) with
    | none =>
      have hns : ¬ sid = s := by
        intro he
        rcases List.any_eq_true.mp hany with ⟨p, hp, hps⟩
        have : ¬ (fun p : Nat × List String => decide (p.1 = sid)) p = true := by
          have := List.find?_eq_none.mp hfind p hp
          simpa using this
        apply this
        simp only [decide_eq_true_eq]
        rw [he]
        exact of_decide_eq_true hps
      simp [hns]
    | some p =>
      have hps : p.1 = sid := by
        have := List.find?_some hfind
        simpa using this
      by_cases h2 : sid = s
      · simp [hps, h2]
      · simp [hps, h2]
  · rw [if_neg hany, List.find?_append]
    cases hfind : acc.find? (fun p => p.1 = sid) with
    | none =>
      by_cases h2 : sid = s
      · rw [List.find?_cons_of_pos _ (by simp [h2.symm])]
        simp [h2, Option.or]
      · rw [List.find?_cons_of_neg _ (by simp; exact fun he => h2 he.symm)]
        simp [h2, Option.or]
    | some p =>
      have hmem := List.mem_of_find?_eq_some hfind
      have hps : p.1 = sid := by
        have := List.find?_some hfind
        simpa using this
      have hns : ¬ sid = s := by
        intro he
        have hp2 : (fun p : Nat × List String => decide (p.1 = s)) p = true := by
          simp only [decide_eq_true_eq]
          rw [hps, he]
        exact hany (List.any_eq_true.mpr ⟨p, hmem, hp2⟩)
      simp [hns, Option.or]

theorem countCourses_foldl (pairs : List (Nat × String)) :
    ∀ (acc : List (Nat × List String)) (sid : Nat),
      countCourses (pairs.foldl (fun a q => addCourse a q.1 q.2) acc) sid =
        countCourses acc sid + (pairs.map Prod.fst).count sid := by
  induction pairs with
  | nil => intro acc sid; simp
  | cons q rest ih =>
    intro acc sid
    simp only [List.foldl_cons, List.map_cons]
    rw [ih, countCourses_addCourse, List.count_cons]
    by_cases h : sid = q.1
    · simp [h]
      omega
    · have h2 : ¬ (q.1 == sid) = true := by simpa using fun he => h he.symm
      simp [h, h2]

theorem student_courses_eq (cs : List (String × List Nat)) :
    student_courses cs =
      (enrollPairs cs).foldl (fun a q => addCourse a q.1 q.2) [] := by
  unfold student_courses enrollPairs
  rw [List.foldl_flatten, List.foldl_map]
  congr 1
  funext acc p
  rw [List.foldl_map]

theorem enrollPairs_fst (cs : List (String × List Nat)) :
    (enrollPairs cs).map Prod.fst = joinAll cs := by
  unfold enrollPairs joinAll
  induction cs with
  | nil => rfl
  | cons p rest ih =>
    simp only [List.map_cons, List.flatten_cons, List.map_append, ih]
    congr 1
    rw [List.map_map]
    exact List.map_id p.2

theorem countCourses_student_courses (cs : List (String × List Nat)) (sid : Nat) :
    countCourses (student_courses cs) sid = (joinAll cs).count sid := by
  rw [student_courses_eq, countCourses_foldl, ← enrollPairs_fst]
  simp [countCourses]

theorem addCourse_keys (acc : List (Nat × List String)) (s : Nat) (c : String) :
    (addCourse acc s c).map Prod.fst =
      if acc.any (fun p => decide (p.1 = s)) = true then acc.map Prod.fst
      else acc.map Prod.fst ++ [s] := by
  unfold addCourse
  by_cases h : acc.any (fun p => decide (p.1 = s)) = true
  · rw [if_pos h, if_pos h, List.map_map]
    congr 1
    funext p
    by_cases h2 : p.1 = s <;> simp [h2]
  · rw [if_neg h, if_neg h]
    simp

theorem foldl_keys_nodup (pairs : List (Nat × String)) :
    ∀ acc : List (Nat × List String), (acc.map Prod.fst).Nodup →
      ((pairs.foldl (fun a q => addCourse a q.1 q.2) acc).map Prod.fst).Nodup := by
  induction pairs with
  | nil => intro acc h; simpa using h
  | cons q rest ih =>
    intro acc h
    simp only [List.foldl_cons]
    apply ih
    rw [addCourse_keys]
    by_cases hany : acc.any (fun p => decide (p.1 = q.1)) = true
    · rw [if_pos hany]; exact h
    · rw [if_neg hany]
      rw [List.nodup_append]
      refine ⟨h, List.nodup_singleton _, ?_⟩
      intro a ha hb
      have ha2 : a = q.1 := by simpa using hb
      rcases List.mem_map.mp ha with ⟨p, hp, hpa⟩
      apply hany
      refine List.any_eq_true.mpr ⟨p, hp, ?_⟩
      simp only [decide_eq_true_eq]
      rw [hpa, ha2]

theorem student_courses_keys_nodup (cs : List (String × List Nat)) :
    ((student_courses cs).map Prod.fst).Nodup := by
  rw [student_courses_eq]
  exact foldl_keys_nodup _ [] (by simp)

theorem entry_count :
    ∀ {acc : List (Nat × List String)}, (acc.map Prod.fst).Nodup →
      ∀ {p : Nat × List String}, p ∈ acc → countCourses acc p.1 = p.2.length := by
  intro acc
  induction acc with
  | nil => intro _ p hp; cases hp
  | cons q qs ih =>
    intro hnd p hp
    rw [List.map_cons] at hnd
    rcases List.nodup_cons.mp hnd with ⟨hq, hqs⟩
    unfold countCourses
    rcases List.mem_cons.mp hp with rfl | hp2
    · rw [List.find?_cons_of_pos _ (by simp)]
    · have hne : ¬ q.1 = p.1 := by
        intro he
        exact hq (he ▸ List.mem_map_of_mem Prod.fst hp2)
      rw [List.find?_cons_of_neg _ (by simp [hne])]
      have := ih hqs hp2
      unfold countCourses at this
      exact this

theorem exists_entry_of_two {cs : List (String × List Nat)} {sid : Nat}
    (h : 2 ≤ (joinAll cs).count sid) :
    ∃ p ∈ student_courses cs, p.1 = sid ∧ 2 ≤ p.2.length := by
  have hc := countCourses_student_courses cs sid
  unfold countCourses at hc
  cases hfind : (student_courses cs).find? (fun p => p.1 = sid) with
  | none =>
    rw [hfind] at hc
    simp at hc
    omega
  | some p =>
    rw [hfind] at hc
    simp at hc
    refine ⟨p, List.mem_of_find?_eq_some hfind, ?_, by omega⟩
    have := List.find?_some hfind
    simpa using this

theorem check_conflicts_iff (cs : List (String × List Nat)) :
    check_conflicts cs = true ↔ ∃ sid, 2 ≤ (joinAll cs).count sid := by
  unfold check_conflicts
  rw [List.any_eq_true]
  constructor
  · rintro ⟨p, hp, hlen⟩
    refine ⟨p.1, ?_⟩
    have he := entry_count (student_courses_keys_nodup cs) hp
    rw [countCourses_student_courses] at he
    have hlen2 : 1 < p.2.length := by simpa using hlen
    omega
  · rintro ⟨sid, hsid⟩
    rcases exists_entry_of_two hsid with ⟨p, hp, _, hlen⟩
    refine ⟨p, hp, ?_⟩
    simp only [decide_eq_true_eq]
    omega

theorem conflictPairs_iff (cs : List (String × List Nat)) (sid : Nat) :
    (∃ l, (sid, l) ∈ conflictPairs cs) ↔ 2 ≤ (joinAll cs).count sid := by
  unfold conflictPairs
  constructor
  · rintro ⟨l, hl⟩
    rcases List.mem_filter.mp hl with ⟨hmem, hlen⟩
    have he := entry_count (student_courses_keys_nodup cs) hmem
    rw [countCourses_student_courses] at he
    have hlen2 : 1 < l.length := by simpa using hlen
    simp only at he
    omega
  · intro h
    rcases exists_entry_of_two h with ⟨p, hp, hfst, hlen⟩
    refine ⟨p.2, ?_⟩
    have hps : (sid, p.2) = p := by
      rcases p with ⟨a, b⟩
      simp only at hfst
      rw [hfst]
    rw [hps]
    refine List.mem_filter.mpr ⟨hp, ?_⟩
    simp only [decide_eq_true_eq]
    omega

theorem no_conflict_count {cs : List (String × List Nat)}
    (h : check_conflicts cs = false) :
    ∀ sid, (joinAll cs).count sid ≤ 1 := by
  intro sid
  by_contra hc
  have h2 : check_conflicts cs = true :=
    (check_conflicts_iff cs).mpr ⟨sid, by omega⟩
  rw [h] at h2
  cases h2

theorem count_le_flatten {L : List (List Nat)} {l : List Nat} (hl : l ∈ L) (a : Nat) :
    l.count a ≤ (L.flatten).count a := by
  rw [List.count_flatten]
  exact List.single_le_sum (fun x _ => Nat.zero_le x) _
    (List.mem_map_of_mem (fun l => l.count a) hl)

theorem no_conflict_nodup {cs : List (String × List Nat)}
    (h : check_conflicts cs = false) {c : String} {l : List Nat}
    (hmem : (c, l) ∈ cs) : l.Nodup := by
  rw [List.nodup_iff_count_le_one]
  intro a
  have h1 : l.count a ≤ (joinAll cs).count a := by
    unfold joinAll
    exact count_le_flatten (List.mem_map_of_mem Prod.snd hmem) a
  exact le_trans h1 (no_conflict_count h a)

theorem no_conflict_disjoint {cs : List (String × List Nat)}
    (h : check_conflicts cs = false) {c1 c2 : String} {l1 l2 : List Nat}
    (h1 : (c1, l1) ∈ cs) (h2 : (c2, l2) ∈ cs) (hne : c1 ≠ c2) :
    ∀ sid, sid ∈ l1 → sid ∉ l2 := by
  intro sid hs1 hs2
  have hcount := no_conflict_count h sid
  rcases List.append_of_mem h1 with ⟨s, t, rfl⟩
  have h2' : (c2, l2) ∈ s ++ t := by
    rcases List.mem_append.mp h2 with hin | hin
    · exact List.mem_append.mpr (Or.inl hin)
    · rcases List.mem_cons.mp hin with he | hin2
      · exact absurd (congrArg Prod.fst he) (by simpa using hne.symm)
      · exact List.mem_append.mpr (Or.inr hin2)
  unfold joinAll at hcount
  rw [List.map_append, List.map_cons, List.flatten_append, List.flatten_cons,
    List.count_append, List.count_append] at hcount
  have hc1 : 1 ≤ l1.count sid := List.count_pos_iff.mpr hs1
  have hc2 : 1 ≤ l2.count sid := List.count_pos_iff.mpr hs2
  have hb : List.count sid ((c1, l1) : String × List Nat).2 = List.count sid l1 := rfl
  rw [hb] at hcount
  rcases List.mem_append.mp h2' with hin | hin
  · have hle : l2.count sid ≤ ((s.map Prod.snd).flatten).count sid :=
      count_le_flatten (List.mem_map_of_mem Prod.snd hin) sid
    omega
  · have hle : l2.count sid ≤ ((t.map Prod.snd).flatten).count sid :=
      count_le_flatten (List.mem_map_of_mem Prod.snd hin) sid
    omega

theorem dedupKeys_nodup_aux {α : Type} [DecidableEq α] (l : List α) :
    ∀ acc : List α, acc.Nodup →
      (l.foldl (fun acc x => if x ∈ acc then acc else acc ++ [x]) acc).Nodup := by
  induction l with
  | nil => intro acc h; simpa using h
  | cons y ys ih =>
    intro acc h
    simp only [List.foldl_cons]
    by_cases hy : y ∈ acc
    · rw [if_pos hy]; exact ih acc h
    · rw [if_neg hy]
      apply ih
      rw [List.nodup_append]
      exact ⟨h, List.nodup_singleton _, fun a ha hb => hy ((by simpa using hb) ▸ ha)⟩

theorem dedupKeys_nodup {α : Type} [DecidableEq α] (l : List α) :
    (dedupKeys l).Nodup :=
  dedupKeys_nodup_aux l [] (by simp)

theorem sessionCourses_keys_nodup (enroll : List (String × Nat))
    (courses : List String) :
    ((sessionCourses enroll courses).map Prod.fst).Nodup := by
  unfold sessionCourses
  rw [List.map_map]
  have he : (Prod.fst ∘ fun c => (c, courseStudents enroll c)) = fun c => c := rfl
  rw [he, List.map_id']
  exact dedupKeys_nodup courses

theorem courseOrder_perm (cs : List (String × List Nat)) :
    (courseOrder cs).Perm cs :=
  stableSort_perm _ _

/-
  Lemmas: building selection and room ordering.
-/

theorem select_building_covering (st : AllocState) (course : String) (total : Nat)
    (rooms : List PRoom) :
    ∀ (bl : List String) (best : Option String) (maxCap : Nat) (b : String),
      bl.find? (fun b => total ≤ buildingAvail st course (roomsInBlock rooms b)) =
        some b →
      select_building st course total rooms bl best maxCap = some b := by
  intro bl
  induction bl with
  | nil => intro best maxCap b h; cases h
  | cons b0 rest ih =>
    intro best maxCap b h
    by_cases hc : total ≤ buildingAvail st course (roomsInBlock rooms b0)
    · rw [List.find?_cons_of_pos _ (by simp [hc])] at h
      injection h with hb
      simp only [select_building]
      rw [if_pos hc, hb]
    · rw [List.find?_cons_of_neg _ (by simp [hc])] at h
      simp only [select_building]
      rw [if_neg hc]
      by_cases hm : maxCap < buildingAvail st course (roomsInBlock rooms b0)
      · rw [if_pos hm]; exact ih _ _ _ h
      · rw [if_neg hm]; exact ih _ _ _ h

theorem select_building_fallback (st : AllocState) (course : String) (total : Nat)
    (rooms : List PRoom) :
    ∀ (bl : List String) (best : Option String) (maxCap : Nat),
      (∀ b ∈ bl, buildingAvail st course (roomsInBlock rooms b) < total) →
      (select_building st course total rooms bl best maxCap = best ∧
        ∀ b ∈ bl, buildingAvail st course (roomsInBlock rooms b) ≤ maxCap) ∨
      (∃ b ∈ bl, select_building st course total rooms bl best maxCap = some b ∧
        maxCap < buildingAvail st course (roomsInBlock rooms b) ∧
        ∀ b2 ∈ bl, buildingAvail st course (roomsInBlock rooms b2) ≤
          buildingAvail st course (roomsInBlock rooms b)) := by
  intro bl
  induction bl with
  | nil =>
    intro best maxCap _
    left
    exact ⟨rfl, by simp⟩
  | cons b0 rest ih =>
    intro best maxCap h
    have hb0 : buildingAvail st course (roomsInBlock rooms b0) < total :=
      h b0 (List.mem_cons_self _ _)
    have hrest : ∀ b ∈ rest, buildingAvail st course (roomsInBlock rooms b) < total :=
      fun b hb => h b (List.mem_cons_of_mem _ hb)
    simp only [select_building]
    rw [if_neg (not_le.mpr hb0)]
    by_cases hm : maxCap < buildingAvail st course (roomsInBlock rooms b0)
    · rw [if_pos hm]
      rcases ih (some b0) (buildingAvail st course (roomsInBlock rooms b0)) hrest with
        ⟨heq, hle⟩ | ⟨b, hbmem, heq, hlt, hle⟩
      · right
        refine ⟨b0, List.mem_cons_self _ _, heq, hm, ?_⟩
        intro b2 hb2
        rcases List.mem_cons.mp hb2 with rfl | hb3
        · exact le_refl _
        · exact hle b2 hb3
      · right
        refine ⟨b, List.mem_cons_of_mem _ hbmem, heq, lt_trans hm hlt, ?_⟩
        intro b2 hb2
        rcases List.mem_cons.mp hb2 with rfl | hb3
        · exact le_of_lt hlt
        · exact hle b2 hb3
    · rw [if_neg hm]
      rcases ih best maxCap hrest with ⟨heq, hle⟩ | ⟨b, hbmem, heq, hlt, hle⟩
      · left
        refine ⟨heq, ?_⟩
        intro b2 hb2
        rcases List.mem_cons.mp hb2 with rfl | hb3
        · exact not_lt.mp hm
        · exact hle b2 hb3
      · right
        refine ⟨b, List.mem_cons_of_mem _ hbmem, heq, hlt, ?_⟩
        intro b2 hb2
        rcases List.mem_cons.mp hb2 with rfl | hb3
        · exact le_trans (not_lt.mp hm) (le_of_lt hlt)
        · exact hle b2 hb3

theorem key1Le_total : ∀ a b : PRoom, (key1Le a b || key1Le b a) = true := by
  intro a b
  simp only [key1Le, Bool.or_eq_true, Bool.and_eq_true, decide_eq_true_eq]
  omega

theorem key1Le_trans : ∀ a b c : PRoom,
    key1Le a b = true → key1Le b c = true → key1Le a c = true := by
  intro a b c
  simp only [key1Le, Bool.or_eq_true, Bool.and_eq_true, decide_eq_true_eq]
  omega

theorem key2Le_total (ref : Nat) :
    ∀ a b : PRoom, (key2Le ref a b || key2Le ref b a) = true := by
  intro a b
  simp only [key2Le, Bool.or_eq_true, Bool.and_eq_true, decide_eq_true_eq]
  omega

theorem key2Le_trans (ref : Nat) : ∀ a b c : PRoom,
    key2Le ref a b = true → key2Le ref b c = true → key2Le ref a c = true := by
  intro a b c
  simp only [key2Le, Bool.or_eq_true, Bool.and_eq_true, decide_eq_true_eq]
  omega

theorem sortedBuildingRooms_perm (l : List PRoom) :
    (sortedBuildingRooms l).Perm l := by
  unfold sortedBuildingRooms
  cases hs : stableSort key1Le l with
  | nil =>
    have h1 := stableSort_perm key1Le l
    rw [hs] at h1
    exact h1
  | cons first rest =>
    have h1 := stableSort_perm key1Le l
    rw [hs] at h1
    exact (stableSort_perm (key2Le first.floor) (first :: rest)).trans h1

theorem sortedBuildingRooms_sorted (l : List PRoom) :
    ∀ (first : PRoom) (rest : List PRoom), stableSort key1Le l = first :: rest →
      List.Pairwise (fun a b => key2Le first.floor a b = true)
        (sortedBuildingRooms l) := by
  intro first rest hs
  unfold sortedBuildingRooms
  rw [hs]
  exact stableSort_pairwise (key2Le_total first.floor) (key2Le_trans first.floor) _

theorem sortedBuildingRooms_ref (l : List PRoom) :
    ∀ (first : PRoom) (rest : List PRoom), stableSort key1Le l = first :: rest →
      first ∈ l ∧ ∀ r ∈ l, key1Le first r = true := by
  intro first rest hs
  constructor
  · have h1 : first ∈ stableSort key1Le l := by
      rw [hs]
      exact List.mem_cons_self _ _
    exact (mem_stableSort _ _ _).mp h1
  · exact stableSort_head_min key1Le_total key1Le_trans hs

/-
  Lemmas: capacity invariants through any allocation sequence.
-/

theorem stepClosed_usage (R : List PRoom)
    (hnd : (R.map (fun r => r.roomNo)).Nodup) :
    StepClosed R (fun st => ∀ r ∈ R,
      (st.usage r.roomNo : Int) ≤ max 0 r.effective_capacity) := by
  intro st room course cnt hmem hP hcnt r hr
  rw [register_usage]
  by_cases h : r.roomNo = room.roomNo
  · have hrr : r = room := List.inj_on_of_nodup_map hnd hr hmem h
    subst hrr
    rw [if_pos h]
    have hbound := avail_le_headroom st r.roomNo course r.effective_capacity
    have hP1 := hP r hr
    have hc2 : (cnt : Int) ≤
        get_available_capacity st r.roomNo course r.effective_capacity := by
      exact_mod_cast hcnt
    push_cast
    omega
  · rw [if_neg h]
    exact hP r hr

theorem stepClosed_tracker (R : List PRoom)
    (hnd : (R.map (fun r => r.roomNo)).Nodup) :
    StepClosed R (fun st => st.strategy = .sparse ∧
      ∀ r ∈ R, ∀ c, (st.course_tracker r.roomNo c : Int) ≤
        max 0 (Int.tdiv r.effective_capacity 2)) := by
  intro st room course cnt hmem hP hcnt
  rcases hP with ⟨hs, hP⟩
  refine ⟨by rw [register_strategy]; exact hs, ?_⟩
  intro r hr c
  rw [register_tracker]
  by_cases h : st.strategy = .sparse ∧ r.roomNo = room.roomNo ∧ c = course
  · rw [if_pos h]
    rcases h with ⟨_, hrn, hcc⟩
    have hrr : r = room := List.inj_on_of_nodup_map hnd hr hmem hrn
    subst hrr
    rw [hcc]
    have hbound := avail_le_course_limit st r.roomNo course r.effective_capacity hs
    have hP1 := hP r hr course
    have hc2 : (cnt : Int) ≤
        get_available_capacity st r.roomNo course r.effective_capacity := by
      exact_mod_cast hcnt
    push_cast
    omega
  · rw [if_neg h]
    exact hP r hr c

theorem usage_invariant (rooms : List Room) (strategy : Strategy) (buffer : Int)
    (hnd : ((prepRooms rooms buffer).map (fun r => r.roomNo)).Nodup)
    (cs : List (String × List Nat)) :
    ∀ r ∈ prepRooms rooms buffer,
      ((runCourses (prepRooms rooms buffer) (initState strategy) cs).1.usage
        r.roomNo : Int) ≤ max 0 r.effective_capacity := by
  refine runCourses_closed (stepClosed_usage _ hnd) cs (initState strategy) ?_
  intro r _
  simp only [initState, Nat.cast_zero]
  exact le_max_left 0 _

theorem tracker_invariant (rooms : List Room) (buffer : Int)
    (hnd : ((prepRooms rooms buffer).map (fun r => r.roomNo)).Nodup)
    (cs : List (String × List Nat)) :
    ∀ r ∈ prepRooms rooms buffer, ∀ c,
      ((runCourses (prepRooms rooms buffer) (initState .sparse) cs).1.course_tracker
        r.roomNo c : Int) ≤ max 0 (Int.tdiv r.effective_capacity 2) := by
  have h := runCourses_closed (stepClosed_tracker _ hnd) cs (initState .sparse)
    ⟨rfl, by intro r _ c; simp only [initState, Nat.cast_zero]; exact le_max_left 0 _⟩
  exact h.2

theorem check_empty_of_nonneg (st : AllocState) (R : List PRoom)
    (hnd : (R.map (fun r => r.roomNo)).Nodup)
    (hinv : ∀ r ∈ R, (st.usage r.roomNo : Int) ≤ max 0 r.effective_capacity)
    (hpos : ∀ r ∈ R, 0 ≤ r.effective_capacity) :
    check_capacity_violations st R = [] := by
  unfold check_capacity_violations
  rw [List.filterMap_eq_nil_iff]
  intro rid hrid
  rcases List.mem_map.mp ((mem_dedupKeys _ _).mp hrid) with ⟨r, hr, rfl⟩
  rw [find?_of_nodup hnd hr]
  show (if r.effective_capacity < (st.usage r.roomNo : Int) then some r.roomNo
    else none) = none
  rw [if_neg]
  have h1 := hinv r hr
  have h2 := hpos r hr
  omega

theorem bound_of_check_empty (st : AllocState) (R : List PRoom)
    (hnd : (R.map (fun r => r.roomNo)).Nodup)
    (hempty : check_capacity_violations st R = []) :
    ∀ r ∈ R, (st.usage r.roomNo : Int) ≤ r.effective_capacity := by
  intro r hr
  unfold check_capacity_violations at hempty
  rw [List.filterMap_eq_nil_iff] at hempty
  have h1 := hempty r.roomNo ((mem_dedupKeys _ _).mpr (List.mem_map_of_mem _ hr))
  rw [find?_of_nodup hnd hr] at h1
  have h2 : (if r.effective_capacity < (st.usage r.roomNo : Int) then some r.roomNo
      else none) = none := h1
  by_cases h : r.effective_capacity < (st.usage r.roomNo : Int)
  · rw [if_pos h] at h2
    cases h2
  · exact not_lt.mp h

/-
  Claim theorems.
-/

/-- Claim C1, helper for the auxiliary bound used below. -/
theorem tdiv_toNat_of_nonneg {a : Int} (h : 0 ≤ a) :
    max 0 (Int.tdiv a 2) = ((a.toNat / 2 : Nat) : Int) := by
  obtain ⟨n, rfl⟩ := Int.eq_ofNat_of_zero_le h
  have h1 : Int.tdiv (n : Int) 2 = ((n / 2 : Nat) : Int) := rfl
  rw [h1, max_eq_right (Int.natCast_nonneg _)]
  simp

/-- Claim C1, counterexample: with nominal capacities 10 and 2 under buffer
5, room R2 has effective capacity -3.  The session passes the conflict and
aggregate-capacity checks and allocation succeeds entirely inside R1, yet
the post-hoc scan flags R2 (usage 0 exceeds effective capacity -3), so the
session is discarded through the violation branch — the branch the claim
calls unreachable is reached. -/
theorem claim_C1_counterexample :
    (process_session [⟨"R1", 10, "X"⟩, ⟨"R2", 2, "X"⟩] .dense 5
      [("CS101", 1), ("CS101", 2)] ["CS101"]).tag = .violation ∧
    check_capacity_violations
      (runCourses (prepRooms [⟨"R1", 10, "X"⟩, ⟨"R2", 2, "X"⟩] 5) (initState .dense)
        (courseOrder (sessionCourses [("CS101", 1), ("CS101", 2)] ["CS101"]))).1
      (prepRooms [⟨"R1", 10, "X"⟩, ⟨"R2", 2, "X"⟩] 5) = ["R2"] :=
  ⟨by decide, by decide⟩

/-- Claim C1, amended: in every emitted session each room's total usage is
at most its effective capacity (the scan that gates emission enforces
exactly this); and when every room's effective capacity is nonnegative the
post-hoc scan can never fire, so the violation branch is unreachable.
Room ids are assumed pairwise distinct, as usage is keyed by id. -/
theorem claim_C1_amended (rooms : List Room) (strategy : Strategy) (buffer : Int)
    (enroll : List (String × Nat)) (courses : List String)
    (hnd : ((prepRooms rooms buffer).map (fun r => r.roomNo)).Nodup) :
    ((process_session rooms strategy buffer enroll courses).tag = .emitted →
      ∀ r ∈ prepRooms rooms buffer,
        ((process_session rooms strategy buffer enroll courses).finalUsage
          r.roomNo : Int) ≤ r.effective_capacity) ∧
    ((∀ r ∈ prepRooms rooms buffer, 0 ≤ r.effective_capacity) →
      (process_session rooms strategy buffer enroll courses).tag ≠ .violation) := by
  constructor
  · intro htag r hr
    cases hres : process_session rooms strategy buffer enroll courses with
    | noCourses => rw [hres] at htag; simp [SessionResult.tag] at htag
    | conflict => rw [hres] at htag; simp [SessionResult.tag] at htag
    | capacityShortfall => rw [hres] at htag; simp [SessionResult.tag] at htag
    | violation => rw [hres] at htag; simp [SessionResult.tag] at htag
    | emitted allocs st =>
      rcases process_session_emitted hres with ⟨_, _, _, hcheck⟩
      have hb := bound_of_check_empty st (prepRooms rooms buffer) hnd hcheck r hr
      simpa [SessionResult.finalUsage] using hb
  · intro hpos
    apply process_session_not_violation
    exact check_empty_of_nonneg _ _ hnd
      (usage_invariant rooms strategy buffer hnd _) hpos

/-- Claim C1, witness: a concrete emitted dense session in which room 101
ends with usage 6, within its effective capacity 10. -/
theorem claim_C1_witness :
    ((process_session [⟨"101", 10, "B1"⟩, ⟨"102", 8, "B1"⟩] .dense 0
      [("A", 1), ("A", 2), ("A", 3), ("B", 4), ("B", 5), ("B", 6)]
      ["A", "B"]).finalUsage "101" : Int) ≤ 10 :=
  (claim_C1_amended [⟨"101", 10, "B1"⟩, ⟨"102", 8, "B1"⟩] .dense 0
    [("A", 1), ("A", 2), ("A", 3), ("B", 4), ("B", 5), ("B", 6)] ["A", "B"]
    (by decide)).1 (by decide) (prepareRoom 0 ⟨"101", 10, "B1"⟩) (by decide)

/-- Claim C2: in every emitted sparse session, for every room and course,
the per-(room, course) tracker stays within floor(0.5 × effective
capacity); emission also forces every effective capacity to be
nonnegative, so the truncating division of the code agrees with the floor
of the claim.  Room ids are assumed pairwise distinct. -/
theorem claim_C2_sparse_cap (rooms : List Room) (buffer : Int)
    (enroll : List (String × Nat)) (courses : List String)
    (hnd : ((prepRooms rooms buffer).map (fun r => r.roomNo)).Nodup)
    (htag : (process_session rooms .sparse buffer enroll courses).tag = .emitted) :
    ∀ r ∈ prepRooms rooms buffer, 0 ≤ r.effective_capacity ∧
      ∀ c, (process_session rooms .sparse buffer enroll courses).finalTracker
        r.roomNo c ≤ r.effective_capacity.toNat / 2 := by
  intro r hr
  cases hres : process_session rooms .sparse buffer enroll courses with
  | noCourses => rw [hres] at htag; simp [SessionResult.tag] at htag
  | conflict => rw [hres] at htag; simp [SessionResult.tag] at htag
  | capacityShortfall => rw [hres] at htag; simp [SessionResult.tag] at htag
  | violation => rw [hres] at htag; simp [SessionResult.tag] at htag
  | emitted allocs st =>
    rcases process_session_emitted hres with ⟨_, hst, _, hcheck⟩
    have husage := bound_of_check_empty st (prepRooms rooms buffer) hnd hcheck r hr
    have hpos : 0 ≤ r.effective_capacity :=
      le_trans (Int.natCast_nonneg _) husage
    refine ⟨hpos, ?_⟩
    intro c
    have htr := tracker_invariant rooms buffer hnd
      (courseOrder (sessionCourses enroll courses)) r hr c
    rw [← hst] at htr
    rw [tdiv_toNat_of_nonneg hpos] at htr
    simp only [SessionResult.finalTracker]
    exact_mod_cast htr

/-- Claim C2, witness: a concrete emitted sparse session in which room 101
holds 3 candidates of course A, within the cap floor(0.5 × 10) = 5. -/
theorem claim_C2_witness :
    (process_session [⟨"101", 10, "B1"⟩, ⟨"102", 8, "B1"⟩] .sparse 0
      [("A", 1), ("A", 2), ("A", 3), ("B", 4), ("B", 5), ("B", 6)]
      ["A", "B"]).finalTracker "101" "A" ≤ 5 :=
  ((claim_C2_sparse_cap [⟨"101", 10, "B1"⟩, ⟨"102", 8, "B1"⟩] 0
    [("A", 1), ("A", 2), ("A", 3), ("B", 4), ("B", 5), ("B", 6)] ["A", "B"]
    (by decide) (by decide) (prepareRoom 0 ⟨"101", 10, "B1"⟩) (by decide)).2 "A")

/-- Claim C3: in any session result, two allocation records carrying
distinct courses have disjoint candidate lists — a candidate never
occupies seats under two courses of one session.  Aborted sessions carry
no records, and emitted ones passed the conflict check, whose success
forces the enrolled lists of distinct courses to be disjoint. -/
theorem claim_C3_disjoint_courses (rooms : List Room) (strategy : Strategy)
    (buffer : Int) (enroll : List (String × Nat)) (courses : List String) :
    ∀ a1 ∈ (process_session rooms strategy buffer enroll courses).allocs,
    ∀ a2 ∈ (process_session rooms strategy buffer enroll courses).allocs,
      a1.course ≠ a2.course → ∀ sid ∈ a1.students, sid ∉ a2.students := by
  intro a1 ha1 a2 ha2 hne sid hs1 hs2
  cases hres : process_session rooms strategy buffer enroll courses with
  | noCourses => rw [hres] at ha1; simp [SessionResult.allocs] at ha1
  | conflict => rw [hres] at ha1; simp [SessionResult.allocs] at ha1
  | capacityShortfall => rw [hres] at ha1; simp [SessionResult.allocs] at ha1
  | violation => rw [hres] at ha1; simp [SessionResult.allocs] at ha1
  | emitted allocs st =>
    rw [hres] at ha1 ha2
    simp only [SessionResult.allocs] at ha1 ha2
    rcases process_session_emitted hres with ⟨hcf, _, hallocs, _⟩
    rw [hallocs] at ha1 ha2
    rcases runCourses_mem _ _ a1 ha1 with ⟨l1, hl1, hsub1⟩
    rcases runCourses_mem _ _ a2 ha2 with ⟨l2, hl2, hsub2⟩
    have hl1m : (a1.course, l1) ∈ sessionCourses enroll courses :=
      (courseOrder_perm _).mem_iff.mp hl1
    have hl2m : (a2.course, l2) ∈ sessionCourses enroll courses :=
      (courseOrder_perm _).mem_iff.mp hl2
    exact no_conflict_disjoint hcf hl1m hl2m hne sid (hsub1 sid hs1) (hsub2 sid hs2)

/-- Claim C3, witness: in the concrete emitted session, candidate 1 of
course A does not appear in the course-B record of room 101. -/
theorem claim_C3_witness :
    (1 : Nat) ∉
      (⟨"B", prepareRoom 0 ⟨"101", 10, "B1"⟩, [4, 5, 6]⟩ : CAlloc).students :=
  claim_C3_disjoint_courses [⟨"101", 10, "B1"⟩, ⟨"102", 8, "B1"⟩] .dense 0
    [("A", 1), ("A", 2), ("A", 3), ("B", 4), ("B", 5), ("B", 6)] ["A", "B"]
    ⟨"A", prepareRoom 0 ⟨"101", 10, "B1"⟩, [1, 2, 3]⟩ (by decide)
    ⟨"B", prepareRoom 0 ⟨"101", 10, "B1"⟩, [4, 5, 6]⟩ (by decide)
    (by decide) 1 (by decide)

/-- Claim C4, counterexample: a candidate listed twice under one single
course is reported as a conflict by check_conflicts — the diagnostics name
candidate 1 with enrollment entries ["A", "A"] — although candidate 1 (the
only candidate of the input) occurs in exactly one course's list, so no
candidate occurs in at least two courses' lists and the claimed
"if and only if" fails on this input. -/
theorem claim_C4_counterexample :
    check_conflicts [("A", [1, 1])] = true ∧
    conflictPairs [("A", [1, 1])] = [(1, ["A", "A"])] ∧
    numListsContaining [("A", [1, 1])] 1 = 1 :=
  ⟨by decide, by decide, by decide⟩

/-- Claim C4, amended: check_conflicts reports a conflict iff some
candidate carries at least two enrollment occurrences counted with
multiplicity across the session's course lists (so a duplicate within one
course also counts); the logged diagnostics list exactly those candidates
with their course lists; and a conflicting session is answered with the
conflict result, which carries zero allocation records and zero usage. -/
theorem claim_C4_amended :
    (∀ cs : List (String × List Nat),
      (check_conflicts cs = true ↔ ∃ sid, 2 ≤ (joinAll cs).count sid) ∧
      ∀ sid, (∃ l, (sid, l) ∈ conflictPairs cs) ↔ 2 ≤ (joinAll cs).count sid) ∧
    ∀ (rooms : List Room) (strategy : Strategy) (buffer : Int)
      (enroll : List (String × Nat)) (courses : List String),
      courses ≠ [] → check_conflicts (sessionCourses enroll courses) = true →
      process_session rooms strategy buffer enroll courses = .conflict ∧
      (process_session rooms strategy buffer enroll courses).allocs = [] ∧
      ∀ rid, (process_session rooms strategy buffer enroll courses).finalUsage
        rid = 0 := by
  constructor
  · intro cs
    exact ⟨check_conflicts_iff cs, fun sid => conflictPairs_iff cs sid⟩
  · intro rooms strategy buffer enroll courses h1 h2
    have he := process_session_conflict rooms strategy buffer enroll courses h1 h2
    rw [he]
    exact ⟨rfl, rfl, fun rid => rfl⟩

/-- Claim C4, witness: candidate 1 enrolled in both A and B makes the
session abort with the conflict result. -/
theorem claim_C4_witness :
    process_session [⟨"R1", 10, "X"⟩] .dense 0 [("A", 1), ("B", 1)] ["A", "B"] =
      .conflict :=
  (claim_C4_amended.2 [⟨"R1", 10, "X"⟩] .dense 0 [("A", 1), ("B", 1)] ["A", "B"]
    (by decide) (by decide)).1

/-- Claim C5: after a clean conflict check, if total demand exceeds the
(raw) sum of effective capacities the session is answered with the
shortfall result — which carries no allocation records and no usage, so
no allocation was attempted; otherwise processing continues into
allocation and ends emitted or (post-hoc) violated. -/
theorem claim_C5_capacity_gate (rooms : List Room) (strategy : Strategy)
    (buffer : Int) (enroll : List (String × Nat)) (courses : List String)
    (h1 : courses ≠ [])
    (h2 : check_conflicts (sessionCourses enroll courses) = false) :
    (totalCapacity (prepRooms rooms buffer) <
        (totalStudents (sessionCourses enroll courses) : Int) →
      process_session rooms strategy buffer enroll courses = .capacityShortfall ∧
      (process_session rooms strategy buffer enroll courses).allocs = [] ∧
      ∀ rid, (process_session rooms strategy buffer enroll courses).finalUsage
        rid = 0) ∧
    ((totalStudents (sessionCourses enroll courses) : Int) ≤
        totalCapacity (prepRooms rooms buffer) →
      (process_session rooms strategy buffer enroll courses).tag = .emitted ∨
      (process_session rooms strategy buffer enroll courses).tag = .violation) := by
  constructor
  · intro h3
    have he := process_session_shortfall rooms strategy buffer enroll courses h1 h2 h3
    rw [he]
    exact ⟨rfl, rfl, fun rid => rfl⟩
  · intro h3
    exact process_session_proceeds h1 h2 h3

/-- Claim C5, witness: demand 4 against raw effective supply 2 aborts the
concrete session with the shortfall result. -/
theorem claim_C5_witness :
    process_session [⟨"R1", 10, "X"⟩, ⟨"R2", 2, "X"⟩] .dense 5
      [("CS101", 1), ("CS101", 2), ("CS101", 3), ("CS101", 4)] ["CS101"] =
      .capacityShortfall :=
  ((claim_C5_capacity_gate [⟨"R1", 10, "X"⟩, ⟨"R2", 2, "X"⟩] .dense 5
    [("CS101", 1), ("CS101", 2), ("CS101", 3), ("CS101", 4)] ["CS101"]
    (by decide) (by decide)).1 (by decide)).1

/-- Claim C6: the building-selection loop of allocate_course returns the
first building, in the fixed first-appearance block order, whose total
available capacity covers the candidate count; when none qualifies, any
selected building has positive available capacity that is maximal over
all buildings; and the in-building room list is a permutation of the
building's rooms, ordered by floor distance to the reference floor (ties
by capacity descending), where the reference room is the first under the
(capacity descending, floor ascending) order and thus minimal under that
key among all of the building's rooms. -/
theorem claim_C6_selection (st : AllocState) (course : String) (total : Nat)
    (rooms : List PRoom) :
    (∀ b : String,
      (blockOrder rooms).find?
        (fun b => total ≤ buildingAvail st course (roomsInBlock rooms b)) = some b →
      select_building st course total rooms (blockOrder rooms) none 0 = some b) ∧
    ((∀ b ∈ blockOrder rooms, buildingAvail st course (roomsInBlock rooms b) < total) →
      ∀ b : String,
        select_building st course total rooms (blockOrder rooms) none 0 = some b →
        b ∈ blockOrder rooms ∧ 0 < buildingAvail st course (roomsInBlock rooms b) ∧
        ∀ b2 ∈ blockOrder rooms,
          buildingAvail st course (roomsInBlock rooms b2) ≤
            buildingAvail st course (roomsInBlock rooms b)) ∧
    ∀ (brooms : List PRoom) (first : PRoom) (rest : List PRoom),
      stableSort key1Le brooms = first :: rest →
      (sortedBuildingRooms brooms).Perm brooms ∧
      first ∈ brooms ∧ (∀ r ∈ brooms, key1Le first r = true) ∧
      List.Pairwise (fun a b => key2Le first.floor a b = true)
        (sortedBuildingRooms brooms) := by
  refine ⟨?_, ?_, ?_⟩
  · intro b h
    exact select_building_covering st course total rooms _ none 0 b h
  · intro hall b hsel
    rcases select_building_fallback st course total rooms (blockOrder rooms) none 0
      hall with ⟨heq, _⟩ | ⟨b0, hmem, heq, hlt, hle⟩
    · rw [hsel] at heq
      cases heq
    · rw [hsel] at heq
      injection heq with hb
      subst hb
      exact ⟨hmem, hlt, hle⟩
  · intro brooms first rest hs
    exact ⟨sortedBuildingRooms_perm brooms,
      (sortedBuildingRooms_ref brooms first rest hs).1,
      (sortedBuildingRooms_ref brooms first rest hs).2,
      sortedBuildingRooms_sorted brooms first rest hs⟩

/-- Claim C6, witness: on a concrete two-building registry, block B1 is
the first in registry order covering a demand of 3 and is selected. -/
theorem claim_C6_witness :
    select_building (initState .dense) "A" 3
      (prepRooms [⟨"101", 10, "B1"⟩, ⟨"201", 8, "B2"⟩] 0)
      (blockOrder (prepRooms [⟨"101", 10, "B1"⟩, ⟨"201", 8, "B2"⟩] 0)) none 0 =
      some "B1" :=
  (claim_C6_selection (initState .dense) "A" 3
    (prepRooms [⟨"101", 10, "B1"⟩, ⟨"201", 8, "B2"⟩] 0)).1 "B1" (by decide)

/-- Claim C7: Pass A equals its spec reading — slice = min(remaining,
available), a room skipped exactly when the slice is below the minimum
allocation size while candidates would remain; Pass B equals its spec
reading with no minimum-slice restriction; the second pass runs only when
the first leaves candidates; and usage grows by exactly the assigned
slice sizes per room. -/
theorem claim_C7_two_pass (course : String) (st : AllocState)
    (remaining : List Nat) (rooms : List PRoom) :
    passA course st remaining rooms = specPassA course st remaining rooms ∧
    passB course st remaining rooms = specPassB course st remaining rooms ∧
    ((passA course st remaining rooms).2.1 = [] →
      assign_to_rooms st course remaining rooms = passA course st remaining rooms) ∧
    ((passA course st remaining rooms).2.1 ≠ [] →
      assign_to_rooms st course remaining rooms =
        ((passB course (passA course st remaining rooms).1
            (passA course st remaining rooms).2.1 rooms).1,
          (passB course (passA course st remaining rooms).1
            (passA course st remaining rooms).2.1 rooms).2.1,
          (passA course st remaining rooms).2.2 ++
            (passB course (passA course st remaining rooms).1
              (passA course st remaining rooms).2.1 rooms).2.2)) ∧
    ∀ rid, (assign_to_rooms st course remaining rooms).1.usage rid =
      st.usage rid +
        (((assign_to_rooms st course remaining rooms).2.2.filter
          (fun a => a.room.roomNo = rid)).map (fun a => a.students.length)).sum := by
  refine ⟨passA_eq_spec course rooms st remaining,
    passB_eq_spec course rooms st remaining, ?_, ?_,
    fun rid => assign_usage st course remaining rooms rid⟩
  · intro h
    simp only [assign_to_rooms, if_pos h]
  · intro h
    simp only [assign_to_rooms, if_neg h]

/-- Claim C7, witness: with rooms of effective capacity 2 and 8 and four
candidates, Pass A skips the first room (slice 2 below the minimum while
candidates would remain) and seats everyone in the second, so the forced
fill never runs and the two-pass result is the Pass A result. -/
theorem claim_C7_witness :
    assign_to_rooms (initState .dense) "A" [1, 2, 3, 4]
      (prepRooms [⟨"101", 2, "B1"⟩, ⟨"102", 8, "B1"⟩] 0) =
    passA "A" (initState .dense) [1, 2, 3, 4]
      (prepRooms [⟨"101", 2, "B1"⟩, ⟨"102", 8, "B1"⟩] 0) :=
  (claim_C7_two_pass "A" (initState .dense) [1, 2, 3, 4]
    (prepRooms [⟨"101", 2, "B1"⟩, ⟨"102", 8, "B1"⟩] 0)).2.2.1 (by decide)

/-- Claim C8, counterexample: with buffer 5, room R2's effective capacity
is -3; the session-level demand check compares demand 4 against the raw
sum 10-5 + 2-5 = 2 and aborts with a shortfall, although the sum that
clamps negative rooms to zero is 5 and would cover the demand — the
misconfigured room contributes a negative amount, not zero, to that
aggregate. -/
theorem claim_C8_counterexample :
    (process_session [⟨"R1", 10, "X"⟩, ⟨"R2", 2, "X"⟩] .dense 5
      [("CS101", 1), ("CS101", 2), ("CS101", 3), ("CS101", 4)] ["CS101"]).tag =
      .capacityShortfall ∧
    totalCapacity (prepRooms [⟨"R1", 10, "X"⟩, ⟨"R2", 2, "X"⟩] 5) = 2 ∧
    ((prepRooms [⟨"R1", 10, "X"⟩, ⟨"R2", 2, "X"⟩] 5).map
      (fun r => max 0 r.effective_capacity)).sum = 5 ∧
    totalStudents (sessionCourses
      [("CS101", 1), ("CS101", 2), ("CS101", 3), ("CS101", 4)] ["CS101"]) = 4 :=
  ⟨by decide, by decide, by decide, by decide⟩

/-- Claim C8, amended: a room with negative effective capacity always has
available capacity 0, never receives an allocation record, and
contributes zero to the building-level available-capacity aggregates —
but the session-level demand-versus-supply check sums raw effective
capacities, where such a room contributes its negative value. -/
theorem claim_C8_amended :
    (∀ (st : AllocState) (rid c : String) (cap : Int), cap < 0 →
      get_available_capacity st rid c cap = 0) ∧
    (∀ (st : AllocState) (rooms : List PRoom) (course : String)
      (students : List Nat),
      ∀ a ∈ (allocate_course st rooms course students).2.1,
        0 < a.room.effective_capacity) ∧
    ∀ (st : AllocState) (course : String) (r : PRoom) (brooms : List PRoom),
      r.effective_capacity < 0 →
      buildingAvail st course (r :: brooms) = buildingAvail st course brooms := by
  have havail : ∀ (st : AllocState) (rid c : String) (cap : Int), cap < 0 →
      get_available_capacity st rid c cap = 0 := by
    intro st rid c cap hneg
    unfold get_available_capacity
    cases hs : st.strategy <;> simp only [hs] <;> omega
  refine ⟨havail, ?_, ?_⟩
  · intro st rooms course students a ha
    exact allocate_pos st rooms course students a ha
  · intro st course r brooms hneg
    unfold buildingAvail
    rw [List.map_cons, List.sum_cons, havail st r.roomNo course r.effective_capacity hneg,
      Nat.zero_add]

/-- Claim C8, witness: room R2 under buffer 5 has effective capacity -3
and available capacity 0. -/
theorem claim_C8_witness :
    get_available_capacity (initState .dense) "R2" "CS101"
      (prepareRoom 5 ⟨"R2", 2, "X"⟩).effective_capacity = 0 :=
  claim_C8_amended.1 (initState .dense) "R2" "CS101"
    (prepareRoom 5 ⟨"R2", 2, "X"⟩).effective_capacity (by decide)

/-- Claim C9, counterexample: a duplicated enrollment pair is kept, not
collapsed — the course's candidate list is [1, 1] — and the session then
aborts through the conflict detector (the duplicate makes candidate 1
carry two course entries) instead of proceeding with a collapsed list. -/
theorem claim_C9_counterexample :
    courseStudents [("A", 1), ("A", 1)] "A" = [1, 1] ∧
    (process_session [⟨"R1", 10, "X"⟩] .dense 0 [("A", 1), ("A", 1)] ["A"]).tag =
      .conflict :=
  ⟨by decide, by decide⟩

/-- Claim C9, amended: duplicates are not collapsed, but a session whose
course list contains one is aborted by the conflict check, so in any
session result no candidate is seated twice under one course: the
candidate ids emitted for each course, across all rooms, are pairwise
distinct. -/
theorem claim_C9_amended (rooms : List Room) (strategy : Strategy) (buffer : Int)
    (enroll : List (String × Nat)) (courses : List String) :
    ∀ c : String,
      (((process_session rooms strategy buffer enroll courses).allocs.filter
        (fun a => a.course = c)).map (fun a => a.students)).flatten.Nodup := by
  intro c
  cases hres : process_session rooms strategy buffer enroll courses with
  | noCourses => simp [SessionResult.allocs]
  | conflict => simp [SessionResult.allocs]
  | capacityShortfall => simp [SessionResult.allocs]
  | violation => simp [SessionResult.allocs]
  | emitted allocs st =>
    rcases process_session_emitted hres with ⟨hcf, _, hallocs, _⟩
    simp only [SessionResult.allocs]
    rw [hallocs]
    apply runCourses_filter_nodup
    · have hperm := (courseOrder_perm (sessionCourses enroll courses)).map Prod.fst
      exact hperm.nodup_iff.mpr (sessionCourses_keys_nodup enroll courses)
    · intro p hp
      have hp2 : p ∈ sessionCourses enroll courses :=
        (courseOrder_perm _).mem_iff.mp hp
      rcases p with ⟨cc, ll⟩
      exact no_conflict_nodup hcf hp2

/-- Claim C10: the allocation records returned by allocate_course slice
the input candidate list into consecutive disjoint segments in input
order — their concatenation followed by the unplaced remainder is exactly
the input — and each room's usage counter grows by exactly the total size
of the slices assigned to it. -/
theorem claim_C10_slices (st : AllocState) (rooms : List PRoom) (course : String)
    (students : List Nat) :
    ((allocate_course st rooms course students).2.1.map
      (fun a => a.students)).flatten
        ++ (allocate_course st rooms course students).2.2 = students ∧
    ∀ rid, (allocate_course st rooms course students).1.usage rid =
      st.usage rid +
        (((allocate_course st rooms course students).2.1.filter
          (fun a => a.room.roomNo = rid)).map (fun a => a.students.length)).sum :=
  ⟨allocate_join st rooms course students,
    fun rid => allocate_usage st rooms course students rid⟩

end ExamSched
